import Mathlib

/-!
# repoqa: embedding pipeline and similarity search

A shallow embedding of `go_embed/types.go`, `go_embed/search.go` and
`go_embed/embed.go`.

* Go slices are lists; a slice expression that Go rejects at run time is the
  result `Except.error Crash.panic`.
* The scoring code is written over an arbitrary component type `F` with its
  own `+`, `*`, `/`, `==`, `<` and a function `sqrt` for `math.Sqrt`; the
  real numbers and the type `Float64` (IEEE-754 binary64, correctly rounded)
  are two instances.
* Everything the program obtains from outside (HTTP responses, the decoded
  index file, the environment variable) is an explicit argument.
-/

namespace GoEmbed

/-- Ways the Go process stops without returning: `log.Fatal` and a run-time panic. -/
inductive Crash where
  | fatal
  | panic
  deriving DecidableEq, Repr

deriving instance DecidableEq for Except

/-! ## types.go -/

/-- The struct `Chunk`. -/
structure Chunk where
  ID : String
  File : String
  Code : String
  deriving DecidableEq, Repr

/-- The struct `EmbeddedChunk`; `F` is the type of vector components. -/
structure EmbeddedChunk (F : Type) where
  ID : String
  File : String
  Code : String
  Embedding : List F
  deriving DecidableEq, Repr

/-- One element of `EmbeddingResponse.Data`. -/
structure EmbeddingDatum (F : Type) where
  Embedding : List F
  deriving DecidableEq, Repr

/-- The struct `EmbeddingResponse`. -/
structure EmbeddingResponse (F : Type) where
  Data : List (EmbeddingDatum F)
  deriving DecidableEq, Repr

/-- The struct `ScoredChunk`. -/
structure ScoredChunk (F : Type) where
  ID : String
  File : String
  Code : String
  Score : F
  deriving DecidableEq, Repr

/-! ## search.go -/

section Search

variable {F : Type}

/-- The loop of `cosineSimilarity`: `for i := range a` updates `dot`, `normA`
and `normB` from `a[i]` and `b[i]`. The two lists are the parts of `a` and `b`
from index `i` on; when `a` still has an element and `b` has none, `b[i]` is
out of range and the loop panics (`none`). Elements of `b` beyond `len(a)` are
never read. -/
def cosineLoop [Add F] [Mul F] : List F → List F → F × F × F → Option (F × F × F)
  | [], _, acc => some acc
  | _ :: _, [], _ => none
  | x :: xs, y :: ys, (dot, normA, normB) =>
      cosineLoop xs ys (dot + x * y, normA + x * x, normB + y * y)

/-- The function `cosineSimilarity(a, b)`. The arithmetic of the component
type is whatever `+`, `*`, `/`, `==` and `sqrt` are on `F`: no law is built
in. -/
def cosineSimilarity [Zero F] [Add F] [Mul F] [Div F] [BEq F]
    (sqrt : F → F) (a b : List F) : Except Crash F :=
  match cosineLoop a b (0, 0, 0) with
  | none => .error .panic
  | some (dot, normA, normB) =>
      if normA == 0 || normB == 0 then .ok 0
      else .ok (dot / (sqrt normA * sqrt normB))

/-- The scoring loop of `SearchIndex`: one `ScoredChunk` per stored chunk, in
index order; a panic in `cosineSimilarity` ends the run. -/
def scoreAll [Zero F] [Add F] [Mul F] [Div F] [BEq F]
    (sqrt : F → F) (queryEmbedding : List F) :
    List (EmbeddedChunk F) → Except Crash (List (ScoredChunk F))
  | [] => .ok []
  | chunk :: rest =>
      match cosineSimilarity sqrt queryEmbedding chunk.Embedding with
      | .error e => .error e
      | .ok score =>
          match scoreAll sqrt queryEmbedding rest with
          | .error e => .error e
          | .ok ms => .ok ({ ID := chunk.ID, File := chunk.File, Code := chunk.Code,
                             Score := score } :: ms)

/-- One pass of the inner loop of Go's insertion sort
(`for j := i; j > a && less(data[j], data[j-1]); j--` with a swap): the sorted
prefix is given last element first, and `x` moves towards the front while it
is `less` than its left neighbour. -/
def insertBack {α : Type} (less : α → α → Bool) (x : α) : List α → List α
  | [] => [x]
  | y :: ys => if less x y then y :: insertBack less x ys else x :: y :: ys

/-- The insertion sort of the Go library (`insertionSortLessFunc`):
`for i := a + 1; i < b; i++` inserts `data[i]` into the sorted prefix. -/
def insertionSort {α : Type} (less : α → α → Bool) (data : List α) : List α :=
  (data.foldl (fun sortedRev x => insertBack less x sortedRev) []).reverse

/-- The constant `maxInsertion` of the Go library's `pdqsort`. -/
def maxInsertion : Nat := 12

/-- The call `sort.Slice(data, less)`. The library runs `pdqsort`, which on a
slice of at most `maxInsertion` elements is the insertion sort; what it does
on a longer slice (`pdq`, neither stable nor fixed by the documentation) is an
argument. -/
def sortSlice {α : Type} (pdq : (α → α → Bool) → List α → List α)
    (less : α → α → Bool) (data : List α) : List α :=
  if data.length ≤ maxInsertion then insertionSort less data else pdq less data

/-- The comparison passed to `sort.Slice` in `SearchIndex`:
`matches[i].Score > matches[j].Score`. -/
def scoreLess [LT F] [DecidableRel (fun (a b : F) => a < b)]
    (x y : ScoredChunk F) : Bool :=
  decide (x.Score > y.Score)

/-- The truncation `if len(matches) > topK { matches = matches[:topK] }`;
`topK` is a Go `int`, and a negative upper bound is a run-time panic. -/
def truncateTop {α : Type} (ms : List α) (topK : Int) : Except Crash (List α) :=
  if (ms.length : Int) > topK then
    if topK < 0 then .error .panic else .ok (ms.take topK.toNat)
  else .ok ms

/-- The ranking step of `SearchIndex`: score every chunk, sort, truncate. -/
def rankIndex [Zero F] [Add F] [Mul F] [Div F] [BEq F] [LT F]
    [DecidableRel (fun (a b : F) => a < b)]
    (pdq : (ScoredChunk F → ScoredChunk F → Bool) → List (ScoredChunk F) → List (ScoredChunk F))
    (sqrt : F → F) (queryEmbedding : List F) (index : List (EmbeddedChunk F))
    (topK : Int) : Except Crash (List (ScoredChunk F)) :=
  match scoreAll sqrt queryEmbedding index with
  | .error e => .error e
  | .ok ms => truncateTop (sortSlice pdq scoreLess ms) topK

/-- The comparison `>` orders the scores of `ms`: it is asymmetric, and "not
greater than" is transitive. On `float64` this holds of any scores none of
which is NaN. -/
def ScoresOrdered [LT F] (ms : List (ScoredChunk F)) : Prop :=
  (∀ x ∈ ms, ∀ y ∈ ms, x.Score < y.Score → ¬ y.Score < x.Score) ∧
  (∀ x ∈ ms, ∀ y ∈ ms, ∀ z ∈ ms,
    ¬ y.Score < x.Score → ¬ z.Score < y.Score → ¬ z.Score < x.Score)

/-- What `sort.Slice` promises of `pdq` with the comparison of `SearchIndex`:
the slice is rearranged, and when the comparison orders the scores no element
ends up before one with a greater score. -/
def SortsByScore [LT F] [DecidableRel (fun (a b : F) => a < b)]
    (pdq : (ScoredChunk F → ScoredChunk F → Bool) → List (ScoredChunk F) → List (ScoredChunk F)) :
    Prop :=
  ∀ l : List (ScoredChunk F), (pdq scoreLess l).Perm l ∧
    (ScoresOrdered l → (pdq scoreLess l).Pairwise (fun a b => ¬ a.Score < b.Score))

/-! The quantities the scoring formula is written in: for the comparison of
`cosineSimilarity` with the formula. -/

/-- The running sum of squares of the components of a vector, from 0 in index
order: `normA` and `normB` as the loop computes them. -/
def sumSqRun [Zero F] [Add F] [Mul F] (a : List F) : F :=
  a.foldl (fun acc x => acc + x * x) 0

/-- The running sum of the products of the components of two vectors, from 0
in index order: `dot` as the loop computes it. -/
def dotRun [Zero F] [Add F] [Mul F] (a b : List F) : F :=
  (a.zip b).foldl (fun acc xy => acc + xy.1 * xy.2) 0

/-- The sum of squares of the components of a vector. -/
def sumSq [Zero F] [Add F] [Mul F] (a : List F) : F :=
  (a.map (fun x => x * x)).sum

/-- The dot product of two vectors, over their common indices. -/
def dotProd [Zero F] [Add F] [Mul F] (a b : List F) : F :=
  (List.zipWith (fun x y => x * y) a b).sum

end Search

/-! ## embed.go -/

/-- A `float64` by its IEEE-754 class; a finite value carries its exact value. -/
inductive Float64 where
  | finite (x : ℚ)
  | posInf
  | negInf
  | nan
  deriving DecidableEq

/-- The predicate `math.IsNaN`. -/
def Float64.IsNaN : Float64 → Bool
  | .nan => true
  | _ => false

/-- The predicate `math.IsInf(f, sign)`: `sign >= 0 && f > MaxFloat64 ||
sign <= 0 && f < -MaxFloat64`. -/
def Float64.IsInf (f : Float64) (sign : Int) : Bool :=
  match f with
  | .posInf => decide (sign ≥ 0)
  | .negInf => decide (sign ≤ 0)
  | _ => false

/-! Arithmetic on `Float64`: IEEE-754 binary64 with round to nearest, ties to
even, gradual underflow, overflow to the infinities and the rules for NaN. A
finite value is carried by its exact rational value, and every operation is
rounded on its own (no fused multiply-add). The sign of zero is not modelled:
`finite 0` stands for both zeros, which compare equal and add alike, and the
scoring code never divides by a zero of negative sign. -/

/-- The rational `2^e`. -/
def pow2 (e : ℤ) : ℚ :=
  if 0 ≤ e then ((2 ^ e.toNat : ℕ) : ℚ) else 1 / ((2 ^ (-e).toNat : ℕ) : ℚ)

/-- The integer nearest to `x`, the even one of two equally near. -/
def roundHalfEven (x : ℚ) : ℤ :=
  let f := ⌊x⌋
  let d := x - f
  if d < 1 / 2 then f else if 1 / 2 < d then f + 1 else if f % 2 = 0 then f else f + 1

/-- Bisection for the binary exponent of `a`: with `2^lo ≤ a < 2^hi`, the `e`
between them with `2^e ≤ a < 2^(e+1)`. -/
def exponentBetween (a : ℚ) : Nat → ℤ → ℤ → ℤ
  | 0, lo, _ => lo
  | fuel + 1, lo, hi =>
      if hi ≤ lo + 1 then lo
      else
        let mid := (lo + hi) / 2
        if pow2 mid ≤ a then exponentBetween a fuel mid hi else exponentBetween a fuel lo mid

/-- The exponent a magnitude `a > 0` is rounded at: its binary exponent, kept
within the exponents -1022 (also for subnormal magnitudes) to 1023 of
binary64. -/
def exponentOf (a : ℚ) : ℤ :=
  if a < pow2 (-1022) then -1022
  else if pow2 1023 ≤ a then 1023
  else exponentBetween a 12 (-1022) 1023

/-- The magnitude `a > 0` rounded to 53 significant bits at its exponent. -/
def roundMag (a : ℚ) : ℚ :=
  let q := pow2 (exponentOf a - 52)
  (roundHalfEven (a / q) : ℚ) * q

/-- The `float64` for the exact result `r`: `r` rounded, an infinity when the
rounded magnitude reaches `2^1024`. -/
def Float64.ofRat (r : ℚ) : Float64 :=
  if r = 0 then .finite 0
  else
    let v := roundMag |r|
    if pow2 1024 ≤ v then (if 0 < r then .posInf else .negInf)
    else .finite (if 0 < r then v else -v)

/-- Newton iteration for the integer square root of `n`, downwards from an `x`
not below it. -/
def isqrtAux (n : Nat) : Nat → Nat → Nat
  | 0, x => x
  | fuel + 1, x =>
      let y := (x + n / x) / 2
      if y < x then isqrtAux n fuel y else x

/-- A rational that rounds like the square root of the `float64` value
`x > 0`: the root itself when it is rational, otherwise a point between the
two neighbours of the root on a grid fine enough to hold every rounding
boundary near it. -/
def sqrtRat (x : ℚ) : ℚ :=
  let t := 100 - exponentOf x / 2
  let s : ℚ := (isqrtAux (⌊x * pow2 (2 * t)⌋).toNat 200 (2 ^ 102) : ℕ)
  if s * s = x * pow2 (2 * t) then s / pow2 t else (2 * s + 1) / pow2 (t + 1)

/-- The sum `x + y`. -/
def Float64.add : Float64 → Float64 → Float64
  | .nan, _ => .nan
  | _, .nan => .nan
  | .posInf, .negInf => .nan
  | .negInf, .posInf => .nan
  | .posInf, _ => .posInf
  | _, .posInf => .posInf
  | .negInf, _ => .negInf
  | _, .negInf => .negInf
  | .finite x, .finite y => Float64.ofRat (x + y)

/-- The product of an infinity, positive when `pos`, with the finite `y`. -/
def Float64.infMul (pos : Bool) (y : ℚ) : Float64 :=
  if y = 0 then .nan
  else if decide (0 < y) = pos then .posInf
  else .negInf

/-- The product `x * y`. -/
def Float64.mul : Float64 → Float64 → Float64
  | .nan, _ => .nan
  | _, .nan => .nan
  | .posInf, .posInf => .posInf
  | .posInf, .negInf => .negInf
  | .negInf, .posInf => .negInf
  | .negInf, .negInf => .posInf
  | .posInf, .finite y => Float64.infMul true y
  | .negInf, .finite y => Float64.infMul false y
  | .finite x, .posInf => Float64.infMul true x
  | .finite x, .negInf => Float64.infMul false x
  | .finite x, .finite y => Float64.ofRat (x * y)

/-- The quotient `x / y`. -/
def Float64.div : Float64 → Float64 → Float64
  | .nan, _ => .nan
  | _, .nan => .nan
  | .posInf, .posInf => .nan
  | .posInf, .negInf => .nan
  | .negInf, .posInf => .nan
  | .negInf, .negInf => .nan
  | .posInf, .finite y => if 0 ≤ y then .posInf else .negInf
  | .negInf, .finite y => if 0 ≤ y then .negInf else .posInf
  | .finite _, .posInf => .finite 0
  | .finite _, .negInf => .finite 0
  | .finite x, .finite y =>
      if y = 0 then (if x = 0 then .nan else if 0 < x then .posInf else .negInf)
      else Float64.ofRat (x / y)

/-- The function `math.Sqrt`, correctly rounded. -/
def Float64.sqrt : Float64 → Float64
  | .nan => .nan
  | .posInf => .posInf
  | .negInf => .nan
  | .finite x =>
      if x < 0 then .nan
      else if x = 0 then .finite 0
      else Float64.ofRat (sqrtRat x)

/-- The comparison `x == y`: false whenever an operand is NaN. -/
def Float64.eq : Float64 → Float64 → Bool
  | .finite x, .finite y => decide (x = y)
  | .posInf, .posInf => true
  | .negInf, .negInf => true
  | _, _ => false

/-- The comparison `x < y`: false whenever an operand is NaN. -/
def Float64.lt : Float64 → Float64 → Bool
  | .finite x, .finite y => decide (x < y)
  | .negInf, .finite _ => true
  | .negInf, .posInf => true
  | .finite _, .posInf => true
  | _, _ => false

instance : Zero Float64 := ⟨.finite 0⟩

instance : Add Float64 := ⟨Float64.add⟩

instance : Mul Float64 := ⟨Float64.mul⟩

instance : Div Float64 := ⟨Float64.div⟩

instance : BEq Float64 := ⟨Float64.eq⟩

instance : LT Float64 := ⟨fun x y => Float64.lt x y = true⟩

instance : DecidableRel (fun (x y : Float64) => x < y) :=
  fun x y => inferInstanceAs (Decidable (Float64.lt x y = true))

/-- The loop `for _, v := range e.Embedding` of `isValidEmbedding`. -/
def validLoop : List Float64 → Bool
  | [] => true
  | v :: vs => if v.IsNaN || v.IsInf 0 then false else validLoop vs

/-- The function `isValidEmbedding`. -/
def isValidEmbedding (e : EmbeddedChunk Float64) : Bool :=
  if e.Embedding.length ≠ 1536 then false else validLoop e.Embedding

/-- A Go `[]byte`: the bytes within its length, and the bytes of its backing
array between its length and its capacity. -/
structure ByteSlice where
  data : List Nat
  spare : List Nat
  deriving DecidableEq, Repr

/-- The length `len(s)`. -/
def ByteSlice.len (s : ByteSlice) : Nat := s.data.length

/-- The capacity `cap(s)`. -/
def ByteSlice.cap (s : ByteSlice) : Nat := s.data.length + s.spare.length

/-- The slice expression `s[:hi]` read as bytes (`string(s[:hi])`): Go checks
`hi` against the capacity, not the length, and panics beyond it. -/
def ByteSlice.sliceTo (s : ByteSlice) (hi : Nat) : Except Crash (List Nat) :=
  if hi ≤ s.cap then .ok ((s.data ++ s.spare).take hi) else .error .panic

/-- The constant 512, the capacity `io.ReadAll` starts from
(`make([]byte, 0, 512)`). -/
def readAllCap : Nat := 512

/-- The slice `io.ReadAll` returns after reading the bytes `body`: it reads
into `make([]byte, 0, 512)` and appends only once that is full, so fewer than
512 bytes come back in a slice of capacity 512 with zero bytes behind them.
The capacity left over after an append is not modelled (no slice expression
of the program reaches that far). -/
def ioReadAll (body : List Nat) : ByteSlice :=
  { data := body, spare := List.replicate (readAllCap - body.length) 0 }

/-- An `*http.Response` as the program uses it. `Body` and `ReadErr` are the
bytes `io.ReadAll(resp.Body)` reads and whether it ends in an error, while the
body is open;
`Json` is the result of decoding the body into an `EmbeddingResponse`
(`none`: the decoder reports an error). -/
structure Response (F : Type) where
  StatusCode : Int
  Body : List Nat
  ReadErr : Bool
  Json : Option (EmbeddingResponse F)

/-- The pair `(resp, err)` returned by `Client.Do`; `none` is `nil`. -/
structure DoResult (F : Type) where
  resp : Option (Response F)
  err : Option String

/-- What the outside world does for one chunk: whether `http.NewRequest`
fails, and the result of the worker's `attempt`-th call of `httpClient.Do`. -/
structure ChunkNet (F : Type) where
  requestErr : Bool
  Do : Nat → DoResult F

/-- The function `buildRequest`; the request itself is only handed to
`httpClient.Do`, whose results are in `ChunkNet`. -/
def buildRequest {F : Type} (net : ChunkNet F) (_chunk : Chunk) (_apiKey : String) :
    Except String Unit :=
  if net.requestErr then .error "net/http: NewRequest failed" else .ok ()

/-- The worker's variables `resp` and `err` when the retry loop is left,
whether `resp.Body` has been closed, and how many calls of `httpClient.Do`
were made. -/
structure LoopVars (F : Type) where
  resp : Option (Response F)
  err : Option String
  closed : Bool
  calls : Nat

/-- The loop `for attempt := 1; attempt <= maxRetries; attempt++` of the
worker, entered at `attempt` with `remaining = maxRetries + 1 - attempt`
iterations left.

* `err == nil && resp.StatusCode == http.StatusOK` dereferences `resp` when
  `err == nil`;
* the `log.Printf("Retry ...", ..., resp.StatusCode)` line dereferences `resp`
  on every failed attempt, also when `resp == nil`. -/
def retryLoop {F : Type} (Do : Nat → DoResult F) :
    (remaining attempt : Nat) → LoopVars F → Except Crash (LoopVars F)
  | 0, _, vars => .ok vars
  | remaining + 1, attempt, vars =>
      let r := Do attempt
      match r.err, r.resp with
      | none, none => .error .panic
      | none, some resp =>
          if resp.StatusCode = 200 then
            .ok { resp := some resp, err := none, closed := false, calls := vars.calls + 1 }
          else
            retryLoop Do remaining (attempt + 1)
              { resp := some resp, err := none, closed := true, calls := vars.calls + 1 }
      | some _, none => .error .panic
      | some e, some resp =>
          retryLoop Do remaining (attempt + 1)
            { resp := some resp, err := some e, closed := true, calls := vars.calls + 1 }

/-- The number of calls of `httpClient.Do` a worker makes before the retry
loop is left or panics. -/
def callsMade {F : Type} (Do : Nat → DoResult F) : (remaining attempt : Nat) → Nat
  | 0, _ => 0
  | remaining + 1, attempt =>
      let r := Do attempt
      match r.err, r.resp with
      | none, none => 1
      | none, some resp =>
          if resp.StatusCode = 200 then 1 else 1 + callsMade Do remaining (attempt + 1)
      | some _, none => 1
      | some _, some _ => 1 + callsMade Do remaining (attempt + 1)

/-- The constant `maxRetries := 3`. -/
def maxRetries : Nat := 3

/-- The part of the worker goroutine that runs while it holds a semaphore
slot: the retry loop, then reading and decoding the body. `.ok (some ec)` is
the send `results <- ec`, `.ok none` a logged `return`. Reading a response
body that has been closed is an error of `net/http`. -/
def workerSection {F : Type} (net : ChunkNet F) (c : Chunk) :
    Except Crash (Option (EmbeddedChunk F)) :=
  match retryLoop net.Do maxRetries 1 { resp := none, err := none, closed := false, calls := 0 } with
  | .error e => .error e
  | .ok vars =>
      match vars.err with
      | some _ => .ok none
      | none =>
          match vars.resp with
          | none => .error .panic
          | some resp =>
              if vars.closed || resp.ReadErr then .ok none
              else
                match resp.Json with
                | none => .ok none
                | some result =>
                    match result.Data with
                    | [] => .ok none
                    | d :: _ =>
                        .ok (some { ID := c.ID, File := c.File, Code := c.Code,
                                    Embedding := d.Embedding })

/-- The goroutine `go func(c Chunk)` run to its end. -/
def worker {F : Type} (apiKey : String) (net : ChunkNet F) (c : Chunk) :
    Except Crash (Option (EmbeddedChunk F)) :=
  match buildRequest net c apiKey with
  | .error _ => .ok none
  | .ok _ => workerSection net c

/-- All workers of a batch, the `i`-th chunk served by `net i`: the chunks
sent to `results`, listed in launch order. A panic in any goroutine ends the
process. -/
def runWorkers {F : Type} (apiKey : String) (net : Nat → ChunkNet F) :
    Nat → List Chunk → Except Crash (List (EmbeddedChunk F))
  | _, [] => .ok []
  | i, c :: cs =>
      match worker apiKey (net i) c with
      | .error e => .error e
      | .ok r =>
          match runWorkers apiKey net (i + 1) cs with
          | .error e => .error e
          | .ok rest => .ok (r.toList ++ rest)

/-- The function `EmbedChunks`. `arrival` is the order in which the workers'
sends reach the `results` channel (a rearrangement of what was sent); the
final loop keeps the elements `isValidEmbedding` accepts. -/
def EmbedChunks (arrival : List (EmbeddedChunk Float64) → List (EmbeddedChunk Float64))
    (apiKey : String) (net : Nat → ChunkNet Float64) (chunks : List Chunk) :
    Except Crash (List (EmbeddedChunk Float64)) :=
  if apiKey = "" then .error .fatal
  else
    match runWorkers apiKey net 0 chunks with
    | .error e => .error e
    | .ok sent => .ok ((arrival sent).filter isValidEmbedding)

/-- The errors `EmbedQuery` returns: the transport error of `Do`, the
`fmt.Errorf("OpenAI API error %d: %s", status, detail)` error, a decoding
error, and `no embedding returned for query input`. -/
inductive QueryError where
  | transport (msg : String)
  | api (status : Int) (detail : List Nat)
  | decode
  | noEmbedding
  deriving DecidableEq, Repr

/-- The result of `EmbedQuery` together with the number of calls of
`http.DefaultClient.Do` it made. -/
structure QueryRun (F : Type) where
  calls : Nat
  result : Except Crash (Except QueryError (List F))

/-- The function `EmbedQuery`, from the call `http.DefaultClient.Do(req)` on
(marshalling a `map[string]string` and `http.NewRequest` with a constant
method and URL do not fail). `Do k` is the result of the `k`-th call. -/
def EmbedQuery {F : Type} (Do : Nat → DoResult F) : QueryRun F :=
  let r := Do 1
  { calls := 1
    result :=
      match r.err with
      | some e => .ok (.error (.transport e))
      | none =>
          match r.resp with
          | none => .error .panic
          | some resp =>
              if resp.StatusCode ≠ 200 then
                match (ioReadAll resp.Body).sliceTo 200 with
                | .error c => .error c
                | .ok detail => .ok (.error (.api resp.StatusCode detail))
              else
                match resp.Json with
                | none => .ok (.error .decode)
                | some result =>
                    match result.Data with
                    | [] => .ok (.error .noEmbedding)
                    | d :: _ => .ok (.ok d.Embedding) }

/-- The errors `SearchIndex` returns: from `os.Open`, from decoding the index
file, and from `EmbedQuery`. -/
inductive SearchError where
  | openFile
  | decodeIndex
  | embedQuery (e : QueryError)
  deriving DecidableEq, Repr

/-- The function `SearchIndex` (search.go). `opened` is what reading
`indexPath` gives: `none` when `os.Open` fails, `some none` when the file does
not decode, `some (some index)` otherwise. -/
def SearchIndex {F : Type} [Zero F] [Add F] [Mul F] [Div F] [BEq F] [LT F]
    [DecidableRel (fun (a b : F) => a < b)]
    (pdq : (ScoredChunk F → ScoredChunk F → Bool) → List (ScoredChunk F) → List (ScoredChunk F))
    (sqrt : F → F) (opened : Option (Option (List (EmbeddedChunk F))))
    (apiKey : String) (Do : Nat → DoResult F) (topK : Int) :
    Except Crash (Except SearchError (List (ScoredChunk F))) :=
  match opened with
  | none => .ok (.error .openFile)
  | some none => .ok (.error .decodeIndex)
  | some (some index) =>
      if apiKey = "" then .error .fatal
      else
        match (EmbedQuery Do).result with
        | .error c => .error c
        | .ok (.error e) => .ok (.error (.embedQuery e))
        | .ok (.ok queryEmbedding) =>
            match rankIndex pdq sqrt queryEmbedding index topK with
            | .error c => .error c
            | .ok ms => .ok (.ok ms)

/-! ## The goroutines of `EmbedChunks`

`EmbedChunks` starts one goroutine per chunk. Its body is

    req, err := buildRequest(c, apiKey); if err != nil { return }
    sem <- struct{}{}
    defer func() { <-sem }()
    ... retry loop, read, decode, results <- ... ...

with `sem := make(chan struct{}, 5)`. An interleaving is a list of events,
each the next move of one goroutine. -/

/-- The constant 5 in `sem := make(chan struct{}, 5)`. -/
def semCap : Nat := 5

/-- Where a worker goroutine stands: before `buildRequest`, blocked at or
about to execute `sem <- struct{}{}`, between that send and the deferred
`<-sem`, and returned. -/
inductive Phase where
  | start
  | waiting
  | inFlight
  | done
  deriving DecidableEq, Repr

/-- The next move of goroutine `i`. -/
inductive Event where
  | build (i : Nat)
  | acquire (i : Nat)
  | finish (i : Nat)
  deriving DecidableEq, Repr

/-- The shared state: the phase of every goroutine, the number of values
buffered in `sem`, the values buffered in `results` (oldest first), and
whether a goroutine has panicked. -/
structure Sys (F : Type) where
  phases : List Phase
  sem : Nat
  results : List (EmbeddedChunk F)
  crashed : Bool

/-- The state after the `for _, chunk := range chunks` loop has launched every
goroutine. -/
def Sys.init {F : Type} (chunks : List Chunk) : Sys F :=
  { phases := chunks.map (fun _ => Phase.start), sem := 0, results := [], crashed := false }

/-- The number of goroutines between `sem <- struct{}{}` and `<-sem`. -/
def inFlightCount (phases : List Phase) : Nat :=
  phases.count Phase.inFlight

/-- One move. `none`: the move is not possible in this state (the goroutine
is elsewhere in its code, the send on a full `sem` blocks, the receive on an
empty `sem` blocks, or the process has ended).

* `build i`: `buildRequest`; on an error the goroutine returns.
* `acquire i`: the send `sem <- struct{}{}`, possible while fewer than
  `semCap` values are buffered.
* `finish i`: the rest of the goroutine (`workerSection`), ending in a return
  or a panic; either way the deferred `<-sem` runs. -/
def Sys.step {F : Type} (apiKey : String) (net : Nat → ChunkNet F) (chunks : List Chunk)
    (s : Sys F) : Event → Option (Sys F)
  | .build i =>
      if s.crashed then none
      else
        match s.phases[i]?, chunks[i]? with
        | some Phase.start, some c =>
            match buildRequest (net i) c apiKey with
            | .error _ => some { s with phases := s.phases.set i Phase.done }
            | .ok _ => some { s with phases := s.phases.set i Phase.waiting }
        | _, _ => none
  | .acquire i =>
      if s.crashed then none
      else
        match s.phases[i]? with
        | some Phase.waiting =>
            if s.sem < semCap then
              some { s with phases := s.phases.set i Phase.inFlight, sem := s.sem + 1 }
            else none
        | _ => none
  | .finish i =>
      if s.crashed then none
      else
        match s.phases[i]?, chunks[i]? with
        | some Phase.inFlight, some c =>
            if s.sem = 0 then none
            else
              match workerSection (net i) c with
              | .error _ =>
                  some { s with phases := s.phases.set i Phase.done, sem := s.sem - 1,
                                crashed := true }
              | .ok none =>
                  some { s with phases := s.phases.set i Phase.done, sem := s.sem - 1 }
              | .ok (some ec) =>
                  some { s with phases := s.phases.set i Phase.done, sem := s.sem - 1,
                                results := s.results ++ [ec] }
        | _, _ => none

/-- The state an interleaving leads to from `s`, `none` when one of its moves
is not possible. -/
def Sys.run {F : Type} (apiKey : String) (net : Nat → ChunkNet F) (chunks : List Chunk) :
    Sys F → List Event → Option (Sys F)
  | s, [] => some s
  | s, e :: es =>
      match Sys.step apiKey net chunks s e with
      | none => none
      | some t => Sys.run apiKey net chunks t es

/-- What the worker of chunk `c` sends to `results` in the course of its
run. -/
def sentBy {F : Type} (apiKey : String) (net : ChunkNet F) (c : Chunk) :
    List (EmbeddedChunk F) :=
  match worker apiKey net c with
  | .ok (some ec) => [ec]
  | _ => []

/-- What the workers that have returned have sent to `results`, listed in
launch order; `i` is the index of the first chunk of the list. -/
def sentByDone {F : Type} (apiKey : String) (net : Nat → ChunkNet F) :
    Nat → List Phase → List Chunk → List (EmbeddedChunk F)
  | i, p :: ps, c :: cs =>
      (if p = Phase.done then sentBy apiKey (net i) c else []) ++
        sentByDone apiKey net (i + 1) ps cs
  | _, _, _ => []

/-- The state of `results` and of the workers agree: `results` holds, in some
order, what the returned workers have sent; a worker past `buildRequest` has
built its request; and unless a goroutine has panicked every returned worker
ran without a panic. -/
def Sys.Consistent {F : Type} (apiKey : String) (net : Nat → ChunkNet F) (chunks : List Chunk)
    (s : Sys F) : Prop :=
  s.results.Perm (sentByDone apiKey net 0 s.phases chunks) ∧
  (∀ i c, (s.phases[i]? = some Phase.waiting ∨ s.phases[i]? = some Phase.inFlight) →
      chunks[i]? = some c → buildRequest (net i) c apiKey = .ok ()) ∧
  (s.crashed = false → ∀ i c, s.phases[i]? = some Phase.done → chunks[i]? = some c →
      ∃ r, worker apiKey (net i) c = .ok r)

/-! ## Concrete inputs -/

/-- A response with status 200 whose body decodes to one embedding. -/
def okResponse (embedding : List Float64) : Response Float64 :=
  { StatusCode := 200, Body := [], ReadErr := false,
    Json := some { Data := [{ Embedding := embedding }] } }

/-- A response with status 500 and a body that is not an embedding. -/
def failResponse : Response Float64 :=
  { StatusCode := 500, Body := [], ReadErr := false, Json := none }

/-- A vector of 1536 finite components. -/
def validVector : List Float64 := List.replicate 1536 (Float64.finite 0)

/-- A chunk that is embedded at the first attempt. -/
def netOk : ChunkNet Float64 :=
  { requestErr := false, Do := fun _ => { resp := some (okResponse validVector), err := none } }

/-- A chunk whose every call is answered with status 500. -/
def netAlways500 : ChunkNet Float64 :=
  { requestErr := false, Do := fun _ => { resp := some failResponse, err := none } }

/-- A chunk whose every call fails in transport (`resp == nil`, `err != nil`). -/
def netTransportError : ChunkNet Float64 :=
  { requestErr := false,
    Do := fun _ => { resp := none, err := some "dial tcp: connection refused" } }

/-- A chunk answered with status 500 twice and then embedded. -/
def netThirdTime : ChunkNet Float64 :=
  { requestErr := false,
    Do := fun attempt =>
      if attempt < 3 then { resp := some failResponse, err := none }
      else { resp := some (okResponse validVector), err := none } }

/-- A chunk answered with status 500 twice, whose third call fails in
transport. -/
def net500ThenTransportError : ChunkNet Float64 :=
  { requestErr := false,
    Do := fun attempt =>
      if attempt < 3 then { resp := some failResponse, err := none }
      else { resp := none, err := some "context deadline exceeded" } }

/-- A batch of five chunks. -/
def fiveChunks : List Chunk :=
  [{ ID := "c0", File := "a.go", Code := "func a()" },
   { ID := "c1", File := "b.go", Code := "func b()" },
   { ID := "c2", File := "c.go", Code := "func c()" },
   { ID := "c3", File := "d.go", Code := "func d()" },
   { ID := "c4", File := "e.go", Code := "func e()" }]

/-- The chunk of `fiveChunks` returned for `c`. -/
def embedded (c : Chunk) : EmbeddedChunk Float64 :=
  { ID := c.ID, File := c.File, Code := c.Code, Embedding := validVector }

/-- The `float64` the JSON number `1e308` decodes to. -/
def float1e308 : Float64 := Float64.ofRat (10 ^ 308)

/-- The query vector `[1, 1]`. -/
def queryOnes : List Float64 := [Float64.finite 1, Float64.finite 1]

/-- An index of three chunks with the vectors `[1, -1]`, `[1e308, 1e308]` and
`[2, 2]`: finite `float64` values, of the length of `queryOnes`. -/
def nanIndex : List (EmbeddedChunk Float64) :=
  [{ ID := "a", File := "a.go", Code := "func a()",
     Embedding := [Float64.finite 1, Float64.finite (-1)] },
   { ID := "b", File := "b.go", Code := "func b()", Embedding := [float1e308, float1e308] },
   { ID := "c", File := "c.go", Code := "func c()",
     Embedding := [Float64.finite 2, Float64.finite 2] }]

/-- The index `nanIndex` without its second chunk. -/
def plainIndex : List (EmbeddedChunk Float64) :=
  [{ ID := "a", File := "a.go", Code := "func a()",
     Embedding := [Float64.finite 1, Float64.finite (-1)] },
   { ID := "c", File := "c.go", Code := "func c()",
     Embedding := [Float64.finite 2, Float64.finite 2] }]

/-- The `float64` printed `0.9999999999999998`, `1 - 2^-52`. -/
def almostOne : Float64 := Float64.finite (4503599627370495 / 4503599627370496)

/-- The bytes of the body `Not Found`. -/
def notFoundBody : List Nat := [78, 111, 116, 32, 70, 111, 117, 110, 100]

/-- A `404` answer to `EmbedQuery` with the nine-byte body `Not Found`. -/
def notFound : Nat → DoResult Float64 :=
  fun _ => { resp := some { StatusCode := 404, Body := notFoundBody, ReadErr := false,
                            Json := none },
             err := none }

/-! ## The arithmetic of `Float64` -/

theorem Float64.add_def (x y : Float64) : x + y = Float64.add x y := rfl

theorem Float64.mul_def (x y : Float64) : x * y = Float64.mul x y := rfl

theorem Float64.div_def (x y : Float64) : x / y = Float64.div x y := rfl

theorem Float64.zero_def : (0 : Float64) = Float64.finite 0 := rfl

theorem Float64.beq_def (x y : Float64) : (x == y) = Float64.eq x y := rfl

theorem Float64.lt_def (x y : Float64) : x < y ↔ Float64.lt x y = true := Iff.rfl

/-- In `Float64`, `0 == 0`, and a running sum of squares that is zero stays
zero when the square of a zero is added. -/
theorem Float64.zero_laws :
    ((0 : Float64) == 0) = true ∧
    ∀ acc x : Float64, (acc == 0) = true → (x == 0) = true → (acc + x * x == 0) = true := by
  constructor
  · simp [Float64.beq_def, Float64.zero_def, Float64.eq]
  · intro acc x hacc hx
    cases acc <;> cases x <;>
      simp_all [Float64.beq_def, Float64.zero_def, Float64.eq]
    rename_i p q
    subst hacc hx
    decide!

/-! ## Scoring: `cosineSimilarity` -/

section CosineLemmas

variable {F : Type}

theorem cosineLoop_short [Add F] [Mul F] (a b : List F) (acc : F × F × F)
    (h : b.length < a.length) : cosineLoop a b acc = none := by
  induction a generalizing b acc with
  | nil => simp at h
  | cons x xs ih =>
    cases b with
    | nil => simp [cosineLoop]
    | cons y ys =>
      obtain ⟨d, na, nb⟩ := acc
      simp only [cosineLoop]
      exact ih ys _ (by simpa using h)

theorem cosineLoop_take [Add F] [Mul F] (a b : List F) (acc : F × F × F) :
    cosineLoop a b acc = cosineLoop a (b.take a.length) acc := by
  induction a generalizing b acc with
  | nil => simp [cosineLoop]
  | cons x xs ih =>
    cases b with
    | nil => simp [cosineLoop]
    | cons y ys =>
      obtain ⟨d, na, nb⟩ := acc
      simp only [cosineLoop, List.length_cons, List.take_succ_cons]
      exact ih ys _

theorem cosineLoop_eq [Semiring F] (a b : List F) (d na nb : F)
    (h : a.length = b.length) :
    cosineLoop a b (d, na, nb) = some (d + dotProd a b, na + sumSq a, nb + sumSq b) := by
  induction a generalizing b d na nb with
  | nil =>
    cases b with
    | nil => simp [cosineLoop, dotProd, sumSq]
    | cons y ys => simp at h
  | cons x xs ih =>
    cases b with
    | nil => simp at h
    | cons y ys =>
      simp only [cosineLoop]
      rw [ih ys _ _ _ (by simpa using h)]
      simp [dotProd, sumSq, add_assoc]

theorem cosineSimilarity_eq [Field F] [DecidableEq F] (sqrt : F → F) (a b : List F)
    (h : a.length = b.length) :
    cosineSimilarity sqrt a b =
      if sumSq a = 0 ∨ sumSq b = 0 then .ok 0
      else .ok (dotProd a b / (sqrt (sumSq a) * sqrt (sumSq b))) := by
  unfold cosineSimilarity
  rw [cosineLoop_eq a b 0 0 0 h]
  simp

theorem sumSq_zero_of_all_zero [Semiring F] (z : List F) (hz : ∀ x ∈ z, x = 0) :
    sumSq z = 0 := by
  induction z with
  | nil => simp [sumSq]
  | cons x xs ih =>
    have hx : x = 0 := hz x (by simp)
    have := ih (fun y hy => hz y (by simp [hy]))
    simp only [sumSq, List.map_cons, List.sum_cons] at this ⊢
    rw [this, hx]; simp

theorem sumSq_nonneg (a : List ℝ) : 0 ≤ sumSq a := by
  induction a with
  | nil => simp [sumSq]
  | cons x xs ih =>
    simp only [sumSq, List.map_cons, List.sum_cons] at ih ⊢
    have := mul_self_nonneg x
    linarith

theorem sumSq_pos_of_exists_ne (v : List ℝ) (hv : ∃ x ∈ v, x ≠ 0) : 0 < sumSq v := by
  induction v with
  | nil => simp at hv
  | cons x xs ih =>
    have hxs := sumSq_nonneg xs
    simp only [sumSq, List.map_cons, List.sum_cons] at hxs ⊢
    by_cases hx : x = 0
    · have : ∃ y ∈ xs, y ≠ 0 := by
        obtain ⟨y, hy, hy0⟩ := hv
        rcases List.mem_cons.1 hy with rfl | hy
        · exact absurd hx hy0
        · exact ⟨y, hy, hy0⟩
      have := ih this
      simp only [sumSq] at this
      have := mul_self_nonneg x
      linarith
    · have : 0 < x * x := mul_self_pos.2 hx
      linarith

theorem dotProd_self (v : List ℝ) : dotProd v v = sumSq v := by
  induction v with
  | nil => simp [dotProd, sumSq]
  | cons x xs ih =>
    simp only [dotProd, sumSq, List.zipWith_cons_cons, List.map_cons, List.sum_cons] at ih ⊢
    rw [ih]

/-- Cauchy-Schwarz for lists of equal length. -/
theorem dotProd_sq_le (a b : List ℝ) (h : a.length = b.length) :
    dotProd a b * dotProd a b ≤ sumSq a * sumSq b := by
  induction a generalizing b with
  | nil => cases b <;> simp [dotProd, sumSq]
  | cons x xs ih =>
    cases b with
    | nil => simp at h
    | cons y ys =>
      have hd := ih ys (by simpa using h)
      have hA := sumSq_nonneg xs
      have hB := sumSq_nonneg ys
      simp only [dotProd, sumSq, List.zipWith_cons_cons, List.map_cons, List.sum_cons]
        at hd hA hB ⊢
      set d := (List.zipWith (fun x y => x * y) xs ys).sum
      set A := (List.map (fun x => x * x) xs).sum
      set B := (List.map (fun x => x * x) ys).sum
      have key : 2 * (d * (x * y)) ≤ A * (y * y) + B * (x * x) := by
        have h1 : (2 * (d * (x * y))) ^ 2 ≤ (A * (y * y) + B * (x * x)) ^ 2 := by
          have e1 : (2 * (d * (x * y))) ^ 2 = 4 * (d * d) * ((x * x) * (y * y)) := by ring
          have e2 : (A * (y * y) + B * (x * x)) ^ 2
              = (A * (y * y) - B * (x * x)) ^ 2 + 4 * (A * B) * ((x * x) * (y * y)) := by ring
          rw [e1, e2]
          have hxy : 0 ≤ (x * x) * (y * y) := mul_nonneg (mul_self_nonneg x) (mul_self_nonneg y)
          have := mul_le_mul_of_nonneg_right hd hxy
          have := sq_nonneg (A * (y * y) - B * (x * x))
          nlinarith
        have h2 : 0 ≤ A * (y * y) + B * (x * x) :=
          add_nonneg (mul_nonneg hA (mul_self_nonneg y)) (mul_nonneg hB (mul_self_nonneg x))
        exact (abs_le_of_sq_le_sq' h1 h2).2
      nlinarith

end CosineLemmas

/-- The loop of `cosineSimilarity` on vectors of equal length computes the
three running sums, whatever the arithmetic. -/
theorem cosineLoop_run {F : Type} [Add F] [Mul F] (a b : List F) (d na nb : F)
    (h : a.length = b.length) :
    cosineLoop a b (d, na, nb) =
      some ((a.zip b).foldl (fun acc xy => acc + xy.1 * xy.2) d,
            a.foldl (fun acc x => acc + x * x) na,
            b.foldl (fun acc x => acc + x * x) nb) := by
  induction a generalizing b d na nb with
  | nil =>
    cases b with
    | nil => rfl
    | cons y ys => simp at h
  | cons x xs ih =>
    cases b with
    | nil => simp at h
    | cons y ys =>
      simp only [cosineLoop, List.zip_cons_cons, List.foldl_cons]
      exact ih ys _ _ _ (by simpa using h)

theorem cosineSimilarity_run {F : Type} [Zero F] [Add F] [Mul F] [Div F] [BEq F]
    (sqrt : F → F) (a b : List F) (h : a.length = b.length) :
    cosineSimilarity sqrt a b =
      if sumSqRun a == 0 || sumSqRun b == 0 then .ok 0
      else .ok (dotRun a b / (sqrt (sumSqRun a) * sqrt (sumSqRun b))) := by
  unfold cosineSimilarity
  rw [cosineLoop_run a b 0 0 0 h]
  rfl

theorem sumSqRun_zero {F : Type} [Zero F] [Add F] [Mul F] [BEq F]
    (hz : ∀ acc x : F, (acc == 0) = true → (x == 0) = true → (acc + x * x == 0) = true)
    (a : List F) (acc : F) (hacc : (acc == 0) = true) (ha : ∀ x ∈ a, (x == 0) = true) :
    (a.foldl (fun acc x => acc + x * x) acc == 0) = true := by
  induction a generalizing acc with
  | nil => simpa using hacc
  | cons x xs ih =>
    simp only [List.foldl_cons]
    exact ih _ (hz acc x hacc (ha x (by simp))) (fun y hy => ha y (by simp [hy]))

/-- C7: for vectors `a` and `b` of equal length, `cosineSimilarity(a, b)` is
the dot product divided by the product of the square roots of the two sums of
squares when both sums are non-zero, and is 0 when either sum is zero; an
all-zero vector scores 0 against any vector of its length, from either side,
and against itself. First for every arithmetic of the components, with the
sums as the loop accumulates them and no law of `+`, `*`, `/`, `==` or `sqrt`
assumed, so for `float64` with its rounding, overflow, underflow and NaN (for
the all-zero vector: given that `0 == 0` and that adding the square of a zero
to a zero sum leaves it zero); then over exact real arithmetic, where the
running sums are the sums of the formula. -/
theorem cosineSimilarity_formula :
    (∀ (F : Type) [Zero F] [Add F] [Mul F] [Div F] [BEq F] (sqrt : F → F) (a b : List F),
      a.length = b.length →
      ((sumSqRun a == 0) = false → (sumSqRun b == 0) = false →
        cosineSimilarity sqrt a b
          = .ok (dotRun a b / (sqrt (sumSqRun a) * sqrt (sumSqRun b)))) ∧
      ((sumSqRun a == 0) = true ∨ (sumSqRun b == 0) = true →
        cosineSimilarity sqrt a b = .ok 0) ∧
      (((0 : F) == 0) = true →
        (∀ acc x : F, (acc == 0) = true → (x == 0) = true → (acc + x * x == 0) = true) →
        (∀ x ∈ a, (x == 0) = true) →
        cosineSimilarity sqrt a b = .ok 0 ∧ cosineSimilarity sqrt b a = .ok 0 ∧
        cosineSimilarity sqrt a a = .ok 0)) ∧
    (∀ a b : List ℝ, a.length = b.length →
      (sumSq a ≠ 0 → sumSq b ≠ 0 →
        cosineSimilarity Real.sqrt a b
          = .ok (dotProd a b / (Real.sqrt (sumSq a) * Real.sqrt (sumSq b)))) ∧
      (sumSq a = 0 ∨ sumSq b = 0 → cosineSimilarity Real.sqrt a b = .ok 0) ∧
      ((∀ x ∈ a, x = 0) →
        cosineSimilarity Real.sqrt a b = .ok 0 ∧ cosineSimilarity Real.sqrt b a = .ok 0 ∧
        cosineSimilarity Real.sqrt a a = .ok 0)) := by
  constructor
  · intro F _ _ _ _ _ sqrt a b h
    refine ⟨fun hA hB => ?_, fun h0 => ?_, fun hz0 hz ha => ?_⟩
    · rw [cosineSimilarity_run sqrt a b h]
      simp [hA, hB]
    · rw [cosineSimilarity_run sqrt a b h]
      rcases h0 with h0 | h0 <;> simp [h0]
    · have hA : (sumSqRun a == 0) = true := sumSqRun_zero hz a 0 hz0 ha
      refine ⟨?_, ?_, ?_⟩
      · rw [cosineSimilarity_run sqrt a b h]; simp [hA]
      · rw [cosineSimilarity_run sqrt b a h.symm]; simp [hA]
      · rw [cosineSimilarity_run sqrt a a rfl]; simp [hA]
  · intro a b h
    refine ⟨fun hA hB => ?_, fun h0 => ?_, fun hz => ?_⟩
    · rw [cosineSimilarity_eq Real.sqrt a b h, if_neg (by tauto)]
    · rw [cosineSimilarity_eq Real.sqrt a b h, if_pos h0]
    · have hA : sumSq a = 0 := sumSq_zero_of_all_zero a hz
      refine ⟨?_, ?_, ?_⟩
      · rw [cosineSimilarity_eq Real.sqrt a b h, if_pos (Or.inl hA)]
      · rw [cosineSimilarity_eq Real.sqrt b a h.symm, if_pos (Or.inr hA)]
      · rw [cosineSimilarity_eq Real.sqrt a a rfl, if_pos (Or.inl hA)]

/-- Witness for C7. In `Float64`, `[3, 4]` against `[4, 3]` takes the quotient
branch with the running sums 24, 25 and 25, and `[0, 0]` scores 0 against
`[3, 4]`; over the real numbers `[3, 4]` against `[4, 3]` takes the quotient
branch and `[0, 0]` scores 0 against `[3, 4]`. -/
theorem cosineSimilarity_formula_witness :
    (([Float64.finite 3, Float64.finite 4].length = [Float64.finite 4, Float64.finite 3].length ∧
      (sumSqRun [Float64.finite 3, Float64.finite 4] == 0) = false ∧
      (sumSqRun [Float64.finite 4, Float64.finite 3] == 0) = false ∧
      cosineSimilarity Float64.sqrt [Float64.finite 3, Float64.finite 4]
          [Float64.finite 4, Float64.finite 3]
        = .ok (dotRun [Float64.finite 3, Float64.finite 4] [Float64.finite 4, Float64.finite 3]
            / (Float64.sqrt (sumSqRun [Float64.finite 3, Float64.finite 4])
                * Float64.sqrt (sumSqRun [Float64.finite 4, Float64.finite 3])))) ∧
     cosineSimilarity Float64.sqrt [Float64.finite 0, Float64.finite 0]
        [Float64.finite 3, Float64.finite 4] = .ok 0) ∧
    (([3, 4] : List ℝ).length = ([4, 3] : List ℝ).length ∧
      sumSq ([3, 4] : List ℝ) ≠ 0 ∧ sumSq ([4, 3] : List ℝ) ≠ 0 ∧
      cosineSimilarity Real.sqrt [3, 4] [4, 3]
        = .ok (dotProd [3, 4] [4, 3]
            / (Real.sqrt (sumSq ([3, 4] : List ℝ)) * Real.sqrt (sumSq ([4, 3] : List ℝ)))) ∧
      cosineSimilarity Real.sqrt [0, 0] [3, 4] = .ok 0) :=
  have hA : (sumSqRun [Float64.finite 3, Float64.finite 4] == 0) = false := by decide!
  have hB : (sumSqRun [Float64.finite 4, Float64.finite 3] == 0) = false := by decide!
  have hA2 : sumSq ([3, 4] : List ℝ) ≠ 0 := by norm_num [sumSq]
  have hB2 : sumSq ([4, 3] : List ℝ) ≠ 0 := by norm_num [sumSq]
  ⟨⟨⟨rfl, hA, hB,
      (cosineSimilarity_formula.1 Float64 Float64.sqrt [Float64.finite 3, Float64.finite 4]
        [Float64.finite 4, Float64.finite 3] rfl).1 hA hB⟩,
     ((cosineSimilarity_formula.1 Float64 Float64.sqrt [Float64.finite 0, Float64.finite 0]
        [Float64.finite 3, Float64.finite 4] rfl).2.2 Float64.zero_laws.1 Float64.zero_laws.2
        (by simp [Float64.beq_def, Float64.zero_def, Float64.eq])).1⟩,
    ⟨rfl, hA2, hB2, (cosineSimilarity_formula.2 [3, 4] [4, 3] rfl).1 hA2 hB2,
      ((cosineSimilarity_formula.2 [0, 0] [3, 4] rfl).2.2 (by simp)).1⟩⟩

/-- C8: over exact real arithmetic, for vectors of equal length whose sums of
squares are non-zero, `cosineSimilarity` returns a score between -1 and 1, and
a vector with a non-zero component scores exactly 1 against itself. -/
theorem cosineSimilarity_bounded :
    (∀ a b : List ℝ, a.length = b.length → sumSq a ≠ 0 → sumSq b ≠ 0 →
      ∃ s, cosineSimilarity Real.sqrt a b = .ok s ∧ -1 ≤ s ∧ s ≤ 1) ∧
    (∀ v : List ℝ, (∃ x ∈ v, x ≠ 0) → cosineSimilarity Real.sqrt v v = .ok 1) := by
  constructor
  · intro a b h hA hB
    refine ⟨_, by rw [cosineSimilarity_eq Real.sqrt a b h, if_neg (by tauto)], ?_⟩
    have hA0 : 0 < sumSq a := lt_of_le_of_ne (sumSq_nonneg a) (Ne.symm hA)
    have hB0 : 0 < sumSq b := lt_of_le_of_ne (sumSq_nonneg b) (Ne.symm hB)
    have hP : 0 < Real.sqrt (sumSq a) * Real.sqrt (sumSq b) :=
      mul_pos (Real.sqrt_pos.2 hA0) (Real.sqrt_pos.2 hB0)
    have hsq : (Real.sqrt (sumSq a) * Real.sqrt (sumSq b)) ^ 2 = sumSq a * sumSq b := by
      rw [mul_pow, Real.sq_sqrt hA0.le, Real.sq_sqrt hB0.le]
    have hcs : dotProd a b ^ 2 ≤ (Real.sqrt (sumSq a) * Real.sqrt (sumSq b)) ^ 2 := by
      rw [hsq, sq]; exact dotProd_sq_le a b h
    have habs := abs_le_of_sq_le_sq' hcs hP.le
    constructor
    · rw [le_div_iff₀ hP]; linarith [habs.1]
    · rw [div_le_one hP]; exact habs.2
  · intro v hv
    have hS : 0 < sumSq v := sumSq_pos_of_exists_ne v hv
    rw [cosineSimilarity_eq Real.sqrt v v rfl, if_neg (by simp [hS.ne.symm]), dotProd_self,
      Real.mul_self_sqrt hS.le, div_self hS.ne.symm]

/-- Witness for C8 at `a = [1, 0]`, `b = [3, 4]` and `v = [3, 4]`. -/
theorem cosineSimilarity_bounded_witness :
    (([1, 0] : List ℝ).length = ([3, 4] : List ℝ).length ∧
      sumSq ([1, 0] : List ℝ) ≠ 0 ∧ sumSq ([3, 4] : List ℝ) ≠ 0 ∧
      ∃ s, cosineSimilarity Real.sqrt [1, 0] [3, 4] = .ok s ∧ -1 ≤ s ∧ s ≤ 1) ∧
    ((∃ x ∈ ([3, 4] : List ℝ), x ≠ 0) ∧ cosineSimilarity Real.sqrt [3, 4] [3, 4] = .ok 1) :=
  ⟨⟨rfl, by norm_num [sumSq], by norm_num [sumSq],
      cosineSimilarity_bounded.1 [1, 0] [3, 4] rfl (by norm_num [sumSq]) (by norm_num [sumSq])⟩,
    ⟨⟨3, by simp, by norm_num⟩, cosineSimilarity_bounded.2 [3, 4] ⟨3, by simp, by norm_num⟩⟩⟩

/-- C2 fails as stated: a query of one component is scored against a stored
vector of two components without any error, from the stored vector's first
component alone. -/
theorem cosineSimilarity_mismatch_counterexample :
    ([1] : List ℝ).length ≠ ([1, 5] : List ℝ).length ∧
    cosineSimilarity Real.sqrt [1] [1, 5] = .ok 1 := by
  constructor
  · simp
  · simp [cosineSimilarity, cosineLoop]

/-- C2 as amended: `cosineSimilarity` has no length check and no error
result. When the stored vector `s` is shorter than the query `q`, the read
`b[i]` goes out of range and the call panics; when `s` is longer, the call
returns the score of `q` against the first `len(q)` components of `s`. -/
theorem cosineSimilarity_mismatch (q s : List ℝ) :
    (s.length < q.length → cosineSimilarity Real.sqrt q s = .error .panic) ∧
    (q.length < s.length →
      cosineSimilarity Real.sqrt q s =
        if sumSq q = 0 ∨ sumSq (s.take q.length) = 0 then .ok 0
        else .ok (dotProd q (s.take q.length)
                    / (Real.sqrt (sumSq q) * Real.sqrt (sumSq (s.take q.length))))) := by
  constructor
  · intro h
    simp [cosineSimilarity, cosineLoop_short q s _ h]
  · intro h
    have hlen : q.length = (s.take q.length).length := by
      simp [List.length_take, Nat.min_eq_left h.le]
    rw [← cosineSimilarity_eq Real.sqrt q (s.take q.length) hlen]
    simp only [cosineSimilarity]
    rw [cosineLoop_take q s]

/-- Witness for the amended C2 at `q = [1, 0]`, `s = [1]` and at `q = [1]`,
`s = [1, 5]`. -/
theorem cosineSimilarity_mismatch_witness :
    (([1] : List ℝ).length < ([1, 0] : List ℝ).length ∧
      cosineSimilarity Real.sqrt [1, 0] [1] = .error .panic) ∧
    (([1] : List ℝ).length < ([1, 5] : List ℝ).length ∧
      cosineSimilarity Real.sqrt [1] [1, 5] =
        if sumSq ([1] : List ℝ) = 0 ∨ sumSq (([1, 5] : List ℝ).take ([1] : List ℝ).length) = 0
        then .ok 0
        else .ok (dotProd [1] (([1, 5] : List ℝ).take ([1] : List ℝ).length)
                    / (Real.sqrt (sumSq ([1] : List ℝ))
                        * Real.sqrt (sumSq (([1, 5] : List ℝ).take ([1] : List ℝ).length))))) :=
  ⟨⟨by simp, (cosineSimilarity_mismatch [1, 0] [1]).1 (by simp)⟩,
    ⟨by simp, (cosineSimilarity_mismatch [1] [1, 5]).2 (by simp)⟩⟩

/-! ## Ranking: sort and truncate -/

section RankLemmas

variable {F : Type}

theorem insertBack_perm {α : Type} (less : α → α → Bool) (x : α) (l : List α) :
    (insertBack less x l).Perm (x :: l) := by
  induction l with
  | nil => simp [insertBack]
  | cons y ys ih =>
    simp only [insertBack]
    split
    · exact (List.Perm.cons y ih).trans (List.Perm.swap x y ys)
    · exact List.Perm.refl _

theorem foldl_insertBack_perm {α : Type} (less : α → α → Bool) (data acc : List α) :
    (data.foldl (fun sortedRev x => insertBack less x sortedRev) acc).Perm (data ++ acc) := by
  induction data generalizing acc with
  | nil => simp
  | cons x xs ih =>
    simp only [List.foldl_cons, List.cons_append]
    refine (ih _).trans ?_
    exact (List.Perm.append_left xs (insertBack_perm less x acc)).trans
      List.perm_middle

theorem insertionSort_perm {α : Type} (less : α → α → Bool) (data : List α) :
    (insertionSort less data).Perm data := by
  unfold insertionSort
  refine (List.reverse_perm _).trans ?_
  simpa using foldl_insertBack_perm less data []

theorem insertBack_ascending [LT F] [DecidableRel (fun (a b : F) => a < b)]
    (all : List (ScoredChunk F)) (hord : ScoresOrdered all)
    (x : ScoredChunk F) (l : List (ScoredChunk F)) (hx : x ∈ all) (hl : ∀ y ∈ l, y ∈ all)
    (hasc : l.Pairwise (fun a b => ¬ b.Score < a.Score)) :
    (insertBack scoreLess x l).Pairwise (fun a b => ¬ b.Score < a.Score) := by
  induction l with
  | nil => simp [insertBack]
  | cons y ys ih =>
    have hy := List.pairwise_cons.1 hasc
    have hyall : y ∈ all := hl y (by simp)
    have hysall : ∀ z ∈ ys, z ∈ all := fun z hz => hl z (by simp [hz])
    simp only [insertBack]
    split
    · rename_i hlt
      have hxy : y.Score < x.Score := by simpa [scoreLess] using hlt
      refine List.pairwise_cons.2 ⟨?_, ih hysall hy.2⟩
      intro z hz
      rcases List.mem_cons.1 ((insertBack_perm scoreLess x ys).mem_iff.1 hz) with rfl | hz
      · exact hord.1 y hyall z hx hxy
      · exact hy.1 z hz
    · rename_i hlt
      have hxy : ¬ y.Score < x.Score := by simpa [scoreLess] using hlt
      refine List.pairwise_cons.2 ⟨?_, hasc⟩
      intro z hz
      rcases List.mem_cons.1 hz with rfl | hz
      · exact hxy
      · exact hord.2 x hx y hyall z (hysall z hz) hxy (hy.1 z hz)

theorem foldl_insertBack_ascending [LT F] [DecidableRel (fun (a b : F) => a < b)]
    (all : List (ScoredChunk F)) (hord : ScoresOrdered all)
    (data acc : List (ScoredChunk F)) (hdata : ∀ y ∈ data, y ∈ all) (hmem : ∀ y ∈ acc, y ∈ all)
    (hacc : acc.Pairwise (fun a b => ¬ b.Score < a.Score)) :
    (data.foldl (fun sortedRev x => insertBack scoreLess x sortedRev) acc).Pairwise
      (fun a b => ¬ b.Score < a.Score) := by
  induction data generalizing acc with
  | nil => simpa using hacc
  | cons x xs ih =>
    have hx : x ∈ all := hdata x (by simp)
    refine ih _ (fun y hy => hdata y (by simp [hy])) ?_
      (insertBack_ascending all hord x acc hx hmem hacc)
    intro y hy
    rcases List.mem_cons.1 ((insertBack_perm scoreLess x acc).mem_iff.1 hy) with rfl | hy
    · exact hx
    · exact hmem y hy

/-- The insertion sort leaves no element before one with a greater score,
when the comparison orders the scores. -/
theorem insertionSort_descending [LT F] [DecidableRel (fun (a b : F) => a < b)]
    (data : List (ScoredChunk F)) (hord : ScoresOrdered data) :
    (insertionSort scoreLess data).Pairwise (fun a b => ¬ a.Score < b.Score) := by
  unfold insertionSort
  rw [List.pairwise_reverse]
  exact foldl_insertBack_ascending data hord data [] (fun _ h => h) (by simp) List.Pairwise.nil

/-- The insertion sort keeps what `sort.Slice` promises. -/
theorem insertionSort_sortsByScore [LT F] [DecidableRel (fun (a b : F) => a < b)] :
    SortsByScore (F := F) insertionSort :=
  fun l => ⟨insertionSort_perm scoreLess l, insertionSort_descending l⟩

theorem sortSlice_perm [LT F] [DecidableRel (fun (a b : F) => a < b)]
    (pdq : (ScoredChunk F → ScoredChunk F → Bool) → List (ScoredChunk F) → List (ScoredChunk F))
    (hpdq : SortsByScore pdq) (data : List (ScoredChunk F)) :
    (sortSlice pdq scoreLess data).Perm data := by
  unfold sortSlice
  split
  · exact insertionSort_perm scoreLess data
  · exact (hpdq data).1

theorem sortSlice_descending [LT F] [DecidableRel (fun (a b : F) => a < b)]
    (pdq : (ScoredChunk F → ScoredChunk F → Bool) → List (ScoredChunk F) → List (ScoredChunk F))
    (hpdq : SortsByScore pdq) (data : List (ScoredChunk F)) (hord : ScoresOrdered data) :
    (sortSlice pdq scoreLess data).Pairwise (fun a b => ¬ a.Score < b.Score) := by
  unfold sortSlice
  split
  · exact insertionSort_descending data hord
  · exact (hpdq data).2 hord

/-- Truncating a slice in which no element stands before one with a greater
score, to `topK ≥ 0`. -/
theorem truncateTop_descending [LT F] (sorted : List (ScoredChunk F)) (topK : Int)
    (hK : 0 ≤ topK) (hs : sorted.Pairwise (fun a b => ¬ a.Score < b.Score)) :
    truncateTop sorted topK = .ok (sorted.take topK.toNat) ∧
    (sorted.take topK.toNat).length = min topK.toNat sorted.length ∧
    (sorted.take topK.toNat).Pairwise (fun a b => ¬ a.Score < b.Score) ∧
    (∀ x ∈ sorted.take topK.toNat, ∀ y ∈ sorted.drop topK.toNat, ¬ x.Score < y.Score) ∧
    ((sorted.length : Int) ≤ topK → sorted.drop topK.toNat = []) := by
  refine ⟨?_, by simp [List.length_take], hs.sublist (List.take_sublist _ _), ?_, ?_⟩
  · unfold truncateTop
    split
    · rw [if_neg (by omega)]
    · rename_i hle
      rw [List.take_of_length_le (by omega)]
  · have := hs
    rw [← List.take_append_drop topK.toNat sorted, List.pairwise_append] at this
    exact this.2.2
  · intro hle
    exact List.drop_of_length_le (by omega)

theorem cosineSimilarity_ok [Zero F] [Add F] [Mul F] [Div F] [BEq F] (sqrt : F → F)
    (q s : List F) (h : q.length ≤ s.length) : ∃ sc, cosineSimilarity sqrt q s = .ok sc := by
  have hloop : ∀ (q s : List F) (acc : F × F × F), q.length ≤ s.length →
      ∃ r, cosineLoop q s acc = some r := by
    intro q
    induction q with
    | nil => intro s acc _; exact ⟨acc, by simp [cosineLoop]⟩
    | cons x xs ih =>
      intro s acc hs
      cases s with
      | nil => simp at hs
      | cons y ys =>
        obtain ⟨d, na, nb⟩ := acc
        simp only [cosineLoop]
        exact ih ys _ (by simpa using hs)
  obtain ⟨⟨d, na, nb⟩, hr⟩ := hloop q s (0, 0, 0) h
  simp only [cosineSimilarity, hr]
  split <;> exact ⟨_, rfl⟩

theorem scoreAll_ok [Zero F] [Add F] [Mul F] [Div F] [BEq F] (sqrt : F → F) (q : List F)
    (index : List (EmbeddedChunk F))
    (hlen : ∀ c ∈ index, q.length ≤ c.Embedding.length) :
    ∃ scored, scoreAll sqrt q index = .ok scored ∧
      List.Forall₂ (fun (m : ScoredChunk F) (c : EmbeddedChunk F) =>
        m.ID = c.ID ∧ m.File = c.File ∧ m.Code = c.Code ∧
        cosineSimilarity sqrt q c.Embedding = .ok m.Score) scored index := by
  induction index with
  | nil => exact ⟨[], rfl, List.Forall₂.nil⟩
  | cons c cs ih =>
    obtain ⟨ms, hms, hall⟩ := ih (fun c hc => hlen c (by simp [hc]))
    obtain ⟨sc, hsc⟩ := cosineSimilarity_ok sqrt q c.Embedding (hlen c (by simp))
    refine ⟨{ ID := c.ID, File := c.File, Code := c.Code, Score := sc } :: ms, ?_, ?_⟩
    · simp [scoreAll, hsc, hms]
    · exact List.Forall₂.cons ⟨rfl, rfl, rfl, hsc⟩ hall

/-- Once the index is read, the key is set and the query is embedded,
`SearchIndex` returns what the ranking step returns. -/
theorem SearchIndex_rank [Zero F] [Add F] [Mul F] [Div F] [BEq F] [LT F]
    [DecidableRel (fun (a b : F) => a < b)]
    (pdq : (ScoredChunk F → ScoredChunk F → Bool) → List (ScoredChunk F) → List (ScoredChunk F))
    (sqrt : F → F) (index : List (EmbeddedChunk F)) (apiKey : String)
    (Do : Nat → DoResult F) (topK : Int) (q : List F) (hkey : apiKey ≠ "")
    (hq : (EmbedQuery Do).result = .ok (.ok q)) :
    SearchIndex pdq sqrt (some (some index)) apiKey Do topK =
      match rankIndex pdq sqrt q index topK with
      | .error c => .error c
      | .ok ms => .ok (.ok ms) := by
  simp [SearchIndex, hkey, hq]

/-- On real numbers the comparison orders any scores. -/
theorem scoresOrdered_real (ms : List (ScoredChunk ℝ)) : ScoresOrdered ms :=
  ⟨fun _ _ _ _ h => not_lt.2 h.le,
    fun _ _ _ _ _ _ h1 h2 => not_lt.2 ((not_lt.1 h1).trans (not_lt.1 h2))⟩

/-- The scores of the three chunks of `nanIndex` against the query `[1, 1]`:
0, NaN (the dot product `1e308 + 1e308` and the sum of squares overflow to
`+Inf`, and `+Inf / (sqrt 2 * +Inf)` is NaN) and `0.9999999999999998`. -/
theorem scoreAll_nanIndex :
    scoreAll Float64.sqrt queryOnes nanIndex = .ok
      [{ ID := "a", File := "a.go", Code := "func a()", Score := Float64.finite 0 },
       { ID := "b", File := "b.go", Code := "func b()", Score := Float64.nan },
       { ID := "c", File := "c.go", Code := "func c()", Score := almostOne }] := by
  decide!

theorem scoreAll_plainIndex :
    scoreAll Float64.sqrt queryOnes plainIndex = .ok
      [{ ID := "a", File := "a.go", Code := "func a()", Score := Float64.finite 0 },
       { ID := "c", File := "c.go", Code := "func c()", Score := almostOne }] := by
  decide!

/-- In `Float64` the comparison orders any scores none of which is NaN. -/
theorem scoresOrdered_float (ms : List (ScoredChunk Float64))
    (h : ∀ m ∈ ms, m.Score ≠ Float64.nan) : ScoresOrdered ms := by
  constructor
  · intro x hx y hy hxy
    have h1 := h x hx
    have h2 := h y hy
    rw [Float64.lt_def] at hxy ⊢
    revert h1 h2 hxy
    cases x.Score <;> cases y.Score <;> simp [Float64.lt]
    intro h; exact h.le
  · intro x hx y hy z hz hxy hyz
    have h1 := h x hx
    have h2 := h y hy
    have h3 := h z hz
    rw [Float64.lt_def] at hxy hyz ⊢
    revert h1 h2 h3 hxy hyz
    cases x.Score <;> cases y.Score <;> cases z.Score <;> simp [Float64.lt]
    intro h1 h2; exact h1.trans h2

/-- The `float64` scores of three probes: `[1, 5]` against itself is
`1.0000000000000002` (rounding), `[2^-600]` against itself is 0 (the square
underflows, so the sum of squares is 0) and `[2^600]` against itself is NaN
(the square overflows). -/
theorem cosineSimilarity_float_probes :
    cosineSimilarity Float64.sqrt [Float64.finite 1, Float64.finite 5]
        [Float64.finite 1, Float64.finite 5]
      = .ok (Float64.finite (4503599627370497 / 4503599627370496)) ∧
    cosineSimilarity Float64.sqrt [Float64.finite (pow2 (-600))] [Float64.finite (pow2 (-600))]
      = .ok (Float64.finite 0) ∧
    sumSqRun [Float64.finite (pow2 (-600))] = Float64.finite 0 ∧
    cosineSimilarity Float64.sqrt [Float64.finite (pow2 600)] [Float64.finite (pow2 600)]
      = .ok Float64.nan := by
  decide!

/-- C1 fails as stated, in two ways. With a query of two components and a
stored vector of one component the scoring loop reads `b[1]` out of range,
and the ranking step panics instead of returning `min(K, N) = 1` chunk. And
in `float64`, with the query `[1, 1]`, the index `nanIndex` of three finite
vectors of two components and `K = 1`, the scores are 0, NaN and
`0.9999999999999998`; every comparison with NaN is false, so the sort leaves
the three chunks as stored, and the chunk returned is the one with score 0,
below the score of a chunk left out. -/
theorem rankIndex_counterexample :
    ((0 : Int) ≤ 1 ∧
      ∀ pdq, rankIndex pdq Real.sqrt ([1, 0] : List ℝ)
        [{ ID := "a", File := "a.go", Code := "func a()", Embedding := [1] }] 1
        = .error .panic) ∧
    ((0 : Int) ≤ 1 ∧
      (∀ c ∈ nanIndex, queryOnes.length = c.Embedding.length) ∧
      (∀ pdq, rankIndex pdq Float64.sqrt queryOnes nanIndex 1
        = .ok [{ ID := "a", File := "a.go", Code := "func a()",
                 Score := Float64.finite 0 }]) ∧
      scoreAll Float64.sqrt queryOnes nanIndex = .ok
        [{ ID := "a", File := "a.go", Code := "func a()", Score := Float64.finite 0 },
         { ID := "b", File := "b.go", Code := "func b()", Score := Float64.nan },
         { ID := "c", File := "c.go", Code := "func c()", Score := almostOne }] ∧
      Float64.finite 0 < almostOne) := by
  refine ⟨⟨by decide, fun pdq => ?_⟩, by decide, by decide, fun pdq => ?_,
    scoreAll_nanIndex, by decide!⟩
  · simp [rankIndex, scoreAll, cosineSimilarity, cosineLoop]
  · simp only [rankIndex, scoreAll_nanIndex, sortSlice, maxInsertion, List.length_cons,
      List.length_nil]
    rw [if_pos (by decide)]
    decide!

/-- C1 as amended: for every query vector, every stored index of `N` chunks
none of whose vectors is shorter than the query and whose scores the
comparison `>` orders (as it does `float64` scores none of which is NaN), and
every `K ≥ 0`, the ranking step of `SearchIndex` scores every chunk and
returns exactly `min(K, N)` of the scored chunks, none before one with a
greater score, and none with a score below that of a scored chunk left out;
when `K ≥ N` nothing is left out. Chunks `A`, `B`, `C` stored in descending
order of score (0.9, 0.5, 0.1) with `K = 2` give `[A, B]`. The arithmetic of
the scores is arbitrary (no law of `+`, `*`, `/`, `==`, `sqrt` is used), and
of `sort.Slice` on more than 12 elements only its contract is used. -/
theorem rankIndex_topK [Zero F] [Add F] [Mul F] [Div F] [BEq F] [LT F]
    [DecidableRel (fun (a b : F) => a < b)]
    (pdq : (ScoredChunk F → ScoredChunk F → Bool) → List (ScoredChunk F) → List (ScoredChunk F))
    (sqrt : F → F) (q : List F) (index : List (EmbeddedChunk F)) (topK : Int)
    (hK : 0 ≤ topK) (hlen : ∀ c ∈ index, q.length ≤ c.Embedding.length)
    (hpdq : SortsByScore pdq)
    (hord : ∀ scored, scoreAll sqrt q index = .ok scored → ScoresOrdered scored) :
    (∃ scored out rest,
      scoreAll sqrt q index = .ok scored ∧
      List.Forall₂ (fun (m : ScoredChunk F) (c : EmbeddedChunk F) =>
        m.ID = c.ID ∧ m.File = c.File ∧ m.Code = c.Code ∧
        cosineSimilarity sqrt q c.Embedding = .ok m.Score) scored index ∧
      rankIndex pdq sqrt q index topK = .ok out ∧
      out.length = min topK.toNat index.length ∧
      out.Pairwise (fun a b => ¬ a.Score < b.Score) ∧
      (out ++ rest).Perm scored ∧
      (∀ x ∈ out, ∀ y ∈ rest, ¬ x.Score < y.Score) ∧
      ((index.length : Int) ≤ topK → rest = [])) ∧
    (∀ A B C : ScoredChunk F, ¬ A.Score < B.Score → ¬ B.Score < C.Score →
      truncateTop (sortSlice pdq scoreLess [A, B, C]) 2 = .ok [A, B]) := by
  constructor
  · obtain ⟨scored, hscored, hall⟩ := scoreAll_ok sqrt q index hlen
    have hN : scored.length = index.length := hall.length_eq
    have hperm := sortSlice_perm pdq hpdq scored
    have hsN : (sortSlice pdq scoreLess scored).length = index.length := by
      rw [hperm.length_eq, hN]
    obtain ⟨h1, h2, h3, h4, h5⟩ :=
      truncateTop_descending (sortSlice pdq scoreLess scored) topK hK
        (sortSlice_descending pdq hpdq scored (hord scored hscored))
    refine ⟨scored, (sortSlice pdq scoreLess scored).take topK.toNat,
      (sortSlice pdq scoreLess scored).drop topK.toNat, hscored, hall, ?_, ?_, h3, ?_, h4, ?_⟩
    · simp only [rankIndex, hscored]
      exact h1
    · rw [h2, hsN]
    · rw [List.take_append_drop]
      exact hperm
    · intro hle
      exact h5 (by rw [hsN]; exact hle)
  · intro A B C h1 h2
    simp [sortSlice, maxInsertion, insertionSort, insertBack, scoreLess, truncateTop, h1, h2]

/-- Witness for the amended C1, in `float64`: the query `[1, 1]`, the index
`plainIndex` of two chunks with scores 0 and `0.9999999999999998`, `K = 1`,
with the chunk of the higher score returned; and chunks with the scores 0.9,
0.5, 0.1 and `K = 2`. -/
theorem rankIndex_topK_witness :
    (0 : Int) ≤ 1 ∧
    (∀ c ∈ plainIndex, queryOnes.length ≤ c.Embedding.length) ∧
    SortsByScore (F := Float64) insertionSort ∧
    (∀ scored, scoreAll Float64.sqrt queryOnes plainIndex = .ok scored → ScoresOrdered scored) ∧
    (∃ out, rankIndex insertionSort Float64.sqrt queryOnes plainIndex 1 = .ok out ∧
      out.length = 1 ∧ out.Pairwise (fun a b => ¬ a.Score < b.Score)) ∧
    rankIndex insertionSort Float64.sqrt queryOnes plainIndex 1
      = .ok [{ ID := "c", File := "c.go", Code := "func c()", Score := almostOne }] ∧
    truncateTop (sortSlice insertionSort scoreLess
        [({ ID := "A", File := "a.go", Code := "func a()",
            Score := Float64.ofRat (9 / 10) } : ScoredChunk Float64),
         { ID := "B", File := "b.go", Code := "func b()", Score := Float64.ofRat (5 / 10) },
         { ID := "C", File := "c.go", Code := "func c()", Score := Float64.ofRat (1 / 10) }]) 2
      = .ok [{ ID := "A", File := "a.go", Code := "func a()", Score := Float64.ofRat (9 / 10) },
             { ID := "B", File := "b.go", Code := "func b()",
               Score := Float64.ofRat (5 / 10) }] :=
  have hord : ∀ scored, scoreAll Float64.sqrt queryOnes plainIndex = .ok scored →
      ScoresOrdered scored := by
    intro scored hs
    rw [scoreAll_plainIndex] at hs
    cases hs
    exact scoresOrdered_float _ (by decide)
  have h := rankIndex_topK insertionSort Float64.sqrt queryOnes plainIndex 1
    (by decide) (by decide) insertionSort_sortsByScore hord
  ⟨by decide, by decide, insertionSort_sortsByScore, hord,
    (let ⟨_, out, _, _, _, ho, hl, hp, _⟩ := h.1
     ⟨out, ho, by simpa [plainIndex] using hl, hp⟩),
    by decide!,
    h.2 _ _ _ (by decide!) (by decide!)⟩

end RankLemmas

/-! ## Validation and the batch result -/

theorem validLoop_iff (l : List Float64) :
    validLoop l = true ↔ ∀ v ∈ l, v ≠ Float64.nan ∧ v ≠ Float64.posInf ∧ v ≠ Float64.negInf := by
  induction l with
  | nil => simp [validLoop]
  | cons v vs ih =>
    simp only [validLoop, List.mem_cons, forall_eq_or_imp]
    cases v <;> simp [Float64.IsNaN, Float64.IsInf, ih]

theorem isValidEmbedding_spec (e : EmbeddedChunk Float64) :
    isValidEmbedding e = true ↔
      e.Embedding.length = 1536 ∧
      ∀ v ∈ e.Embedding, v ≠ Float64.nan ∧ v ≠ Float64.posInf ∧ v ≠ Float64.negInf := by
  unfold isValidEmbedding
  by_cases h : e.Embedding.length = 1536
  · simp [h, validLoop_iff]
  · simp [h]

theorem workerSection_fields {F : Type} (net : ChunkNet F) (c : Chunk) (ec : EmbeddedChunk F)
    (h : workerSection net c = .ok (some ec)) :
    ec.ID = c.ID ∧ ec.File = c.File ∧ ec.Code = c.Code := by
  unfold workerSection at h
  split at h
  · simp at h
  · split at h
    · simp at h
    · split at h
      · simp at h
      · split at h
        · simp at h
        · split at h
          · simp at h
          · split at h
            · simp at h
            · simp only [Except.ok.injEq, Option.some.injEq] at h
              subst h
              exact ⟨rfl, rfl, rfl⟩

theorem worker_fields {F : Type} (apiKey : String) (net : ChunkNet F) (c : Chunk)
    (ec : EmbeddedChunk F) (h : worker apiKey net c = .ok (some ec)) :
    ec.ID = c.ID ∧ ec.File = c.File ∧ ec.Code = c.Code := by
  unfold worker at h
  split at h
  · simp at h
  · exact workerSection_fields net c ec h

theorem runWorkers_sublist {F : Type} (apiKey : String) (net : Nat → ChunkNet F)
    (i : Nat) (chunks : List Chunk) (sent : List (EmbeddedChunk F))
    (h : runWorkers apiKey net i chunks = .ok sent) :
    (sent.map (fun e => Chunk.mk e.ID e.File e.Code)).Sublist chunks := by
  induction chunks generalizing i sent with
  | nil =>
    simp only [runWorkers, Except.ok.injEq] at h
    subst h
    simp
  | cons c cs ih =>
    simp only [runWorkers] at h
    split at h
    · simp at h
    · rename_i r hr
      split at h
      · simp at h
      · rename_i rest hrest
        simp only [Except.ok.injEq] at h
        subst h
        have hsub := ih (i + 1) rest hrest
        cases r with
        | none => simpa using hsub.cons c
        | some ec =>
          obtain ⟨h1, h2, h3⟩ := worker_fields apiKey (net i) c ec hr
          simp only [Option.toList, List.singleton_append, List.map_cons]
          have : Chunk.mk ec.ID ec.File ec.Code = c := by
            cases c; simp_all
          rw [this]
          exact hsub.cons₂ c

theorem retryLoop_ok_of_resp {F : Type} (Do : Nat → DoResult F)
    (hresp : ∀ k, (Do k).resp ≠ none) (remaining attempt : Nat) (vars : LoopVars F) :
    ∃ out, retryLoop Do remaining attempt vars = .ok out ∧
      (out.resp = none → out = vars) := by
  induction remaining generalizing attempt vars with
  | zero => exact ⟨vars, rfl, fun _ => rfl⟩
  | succ n ih =>
    have hr := hresp attempt
    simp only [retryLoop]
    cases hres : (Do attempt).resp with
    | none => exact absurd hres hr
    | some resp =>
      cases herr : (Do attempt).err with
      | none =>
        simp only
        split
        · exact ⟨_, rfl, by simp⟩
        · obtain ⟨out, ho, hn⟩ := ih (attempt + 1)
            { resp := some resp, err := none, closed := true, calls := vars.calls + 1 }
          refine ⟨out, ho, fun h => ?_⟩
          have := hn h
          rw [this] at h
          simp at h
      | some e =>
        simp only
        obtain ⟨out, ho, hn⟩ := ih (attempt + 1)
          { resp := some resp, err := some e, closed := true, calls := vars.calls + 1 }
        refine ⟨out, ho, fun h => ?_⟩
        have := hn h
        rw [this] at h
        simp at h

theorem retryLoop_succ_resp {F : Type} (Do : Nat → DoResult F)
    (hresp : ∀ k, (Do k).resp ≠ none) (n attempt : Nat) (vars : LoopVars F) :
    ∃ out, retryLoop Do (n + 1) attempt vars = .ok out ∧ out.resp ≠ none := by
  have hr := hresp attempt
  simp only [retryLoop]
  cases hres : (Do attempt).resp with
  | none => exact absurd hres hr
  | some resp =>
    cases herr : (Do attempt).err with
    | none =>
      simp only
      split
      · exact ⟨_, rfl, by simp⟩
      · obtain ⟨out, ho, hn⟩ := retryLoop_ok_of_resp Do hresp n (attempt + 1)
          { resp := some resp, err := none, closed := true, calls := vars.calls + 1 }
        refine ⟨out, ho, fun h => ?_⟩
        have := hn h
        rw [this] at h
        simp at h
    | some e =>
      simp only
      obtain ⟨out, ho, hn⟩ := retryLoop_ok_of_resp Do hresp n (attempt + 1)
        { resp := some resp, err := some e, closed := true, calls := vars.calls + 1 }
      refine ⟨out, ho, fun h => ?_⟩
      have := hn h
      rw [this] at h
      simp at h

theorem workerSection_ok_of_resp {F : Type} (net : ChunkNet F) (c : Chunk)
    (hresp : ∀ k, (net.Do k).resp ≠ none) : ∃ r, workerSection net c = .ok r := by
  obtain ⟨out, ho, hn⟩ := retryLoop_succ_resp net.Do hresp 2 1
    { resp := none, err := none, closed := false, calls := 0 }
  unfold workerSection
  rw [show maxRetries = 2 + 1 from rfl, ho]
  simp only
  split
  · exact ⟨_, rfl⟩
  · split
    · rename_i h; exact absurd h hn
    · split
      · exact ⟨_, rfl⟩
      · split
        · exact ⟨_, rfl⟩
        · split <;> exact ⟨_, rfl⟩

theorem worker_ok_of_resp {F : Type} (apiKey : String) (net : ChunkNet F) (c : Chunk)
    (hresp : ∀ k, (net.Do k).resp ≠ none) : ∃ r, worker apiKey net c = .ok r := by
  unfold worker
  split
  · exact ⟨_, rfl⟩
  · exact workerSection_ok_of_resp net c hresp

theorem runWorkers_ok_of_resp {F : Type} (apiKey : String) (net : Nat → ChunkNet F)
    (hresp : ∀ i k, ((net i).Do k).resp ≠ none) (i : Nat) (chunks : List Chunk) :
    ∃ sent, runWorkers apiKey net i chunks = .ok sent := by
  induction chunks generalizing i with
  | nil => exact ⟨[], rfl⟩
  | cons c cs ih =>
    obtain ⟨r, hr⟩ := worker_ok_of_resp apiKey (net i) c (hresp i)
    obtain ⟨rest, hrest⟩ := ih (i + 1)
    exact ⟨r.toList ++ rest, by simp [runWorkers, hr, hrest]⟩

/-- C5: whatever the remote endpoint does and in whatever order the results
arrive, a list returned by `EmbedChunks` for a batch of `N` chunks has at most
`N` elements, and the `(ID, File, Code)` triples of its elements are, up to
order, a sub-list of the input batch: every element comes from an input chunk
and each input chunk gives at most one element. `EmbedChunks` does return a
list when the API key is set and every call of `httpClient.Do` yields a
response. -/
theorem EmbedChunks_subset (arrival : List (EmbeddedChunk Float64) → List (EmbeddedChunk Float64))
    (apiKey : String) (net : Nat → ChunkNet Float64) (chunks : List Chunk)
    (harr : ∀ l, (arrival l).Perm l) :
    (∀ out, EmbedChunks arrival apiKey net chunks = .ok out →
      out.length ≤ chunks.length ∧
      (∀ e ∈ out, ∃ c ∈ chunks, e.ID = c.ID ∧ e.File = c.File ∧ e.Code = c.Code) ∧
      ∃ kept, kept.Sublist chunks ∧
        (out.map (fun e => Chunk.mk e.ID e.File e.Code)).Perm kept) ∧
    (apiKey ≠ "" → (∀ i k, ((net i).Do k).resp ≠ none) →
      ∃ out, EmbedChunks arrival apiKey net chunks = .ok out) := by
  constructor
  · intro out hout
    unfold EmbedChunks at hout
    split at hout
    · simp at hout
    · split at hout
      · simp at hout
      · rename_i sent hsent
        simp only [Except.ok.injEq] at hout
        have hsub := runWorkers_sublist apiKey net 0 chunks sent hsent
        have hfs : (List.filter isValidEmbedding sent).Sublist sent := List.filter_sublist _
        have hperm : out.Perm (sent.filter isValidEmbedding) := by
          rw [← hout]
          exact (harr sent).filter _
        have hkept : ((sent.filter isValidEmbedding).map
            (fun e => Chunk.mk e.ID e.File e.Code)).Sublist chunks :=
          (hfs.map _).trans hsub
        refine ⟨?_, ?_, _, hkept, hperm.map _⟩
        · rw [hperm.length_eq]
          simpa using hkept.length_le
        · intro e he
          have he2 : e ∈ sent.filter isValidEmbedding := hperm.mem_iff.1 he
          have : Chunk.mk e.ID e.File e.Code ∈ chunks :=
            hkept.subset (List.mem_map.2 ⟨e, he2, rfl⟩)
          exact ⟨_, this, rfl, rfl, rfl⟩
  · intro hkey hresp
    obtain ⟨sent, hsent⟩ := runWorkers_ok_of_resp apiKey net hresp 0 chunks
    exact ⟨(arrival sent).filter isValidEmbedding, by simp [EmbedChunks, hkey, hsent]⟩

/-- C6: `isValidEmbedding(e)` holds exactly when `e.Embedding` has 1536
components none of which is NaN, +Inf or -Inf; and when the workers have
fetched the chunks `sent`, `EmbedChunks` returns, up to order, exactly those
of them `isValidEmbedding` accepts, so every chunk it returns has 1536
components, all finite. -/
theorem isValidEmbedding_iff :
    (∀ e : EmbeddedChunk Float64, isValidEmbedding e = true ↔
      e.Embedding.length = 1536 ∧
      ∀ v ∈ e.Embedding, v ≠ Float64.nan ∧ v ≠ Float64.posInf ∧ v ≠ Float64.negInf) ∧
    (∀ (arrival : List (EmbeddedChunk Float64) → List (EmbeddedChunk Float64))
       (apiKey : String) (net : Nat → ChunkNet Float64) (chunks : List Chunk)
       (sent : List (EmbeddedChunk Float64)),
      (∀ l, (arrival l).Perm l) → apiKey ≠ "" → runWorkers apiKey net 0 chunks = .ok sent →
      ∃ out, EmbedChunks arrival apiKey net chunks = .ok out ∧
        out.Perm (sent.filter isValidEmbedding) ∧
        (∀ e, e ∈ out ↔ e ∈ sent ∧ isValidEmbedding e = true) ∧
        ∀ e ∈ out, e.Embedding.length = 1536 ∧
          ∀ v ∈ e.Embedding, v ≠ Float64.nan ∧ v ≠ Float64.posInf ∧ v ≠ Float64.negInf) := by
  refine ⟨isValidEmbedding_spec, ?_⟩
  intro arrival apiKey net chunks sent harr hkey hsent
  have hperm : ((arrival sent).filter isValidEmbedding).Perm (sent.filter isValidEmbedding) :=
    (harr sent).filter _
  refine ⟨_, by simp [EmbedChunks, hkey, hsent], hperm, ?_, ?_⟩
  · intro e
    rw [hperm.mem_iff, List.mem_filter]
  · intro e he
    have := (List.mem_filter.1 (hperm.mem_iff.1 he)).2
    exact (isValidEmbedding_spec e).1 this

/-- Witness for C5: a batch of one chunk, embedded at the first attempt. -/
theorem EmbedChunks_subset_witness :
    (∀ l : List (EmbeddedChunk Float64), (id l).Perm l) ∧ "sk-test" ≠ "" ∧
    (∀ i k : Nat, (((fun (_ : Nat) => netOk) i).Do k).resp ≠ none) ∧
    ∃ out, EmbedChunks id "sk-test" (fun _ => netOk)
        [{ ID := "c0", File := "a.go", Code := "func a()" }] = .ok out ∧
      out.length ≤ 1 :=
  ⟨fun l => List.Perm.refl l, by decide, fun _ _ => by simp [netOk],
    let h := EmbedChunks_subset id "sk-test" (fun _ => netOk)
      [{ ID := "c0", File := "a.go", Code := "func a()" }] (fun l => List.Perm.refl l)
    let ⟨out, hout⟩ := h.2 (by decide) (fun _ _ => by simp [netOk])
    ⟨out, hout, (h.1 out hout).1⟩⟩

/-- Witness for C6: a batch of one chunk whose response carries a vector of
one component; the chunk is fetched and not retained. -/
theorem isValidEmbedding_iff_witness :
    (∀ l : List (EmbeddedChunk Float64), (id l).Perm l) ∧ "sk-test" ≠ "" ∧
    runWorkers "sk-test"
        (fun _ => { requestErr := false,
                    Do := fun _ => { resp := some (okResponse [Float64.finite 1]),
                                     err := none } })
        0 [{ ID := "c0", File := "a.go", Code := "func a()" }]
      = .ok [{ ID := "c0", File := "a.go", Code := "func a()",
               Embedding := [Float64.finite 1] }] ∧
    ∃ out, EmbedChunks id "sk-test"
        (fun _ => { requestErr := false,
                    Do := fun _ => { resp := some (okResponse [Float64.finite 1]),
                                     err := none } })
        [{ ID := "c0", File := "a.go", Code := "func a()" }] = .ok out ∧
      out.Perm (List.filter isValidEmbedding
        [{ ID := "c0", File := "a.go", Code := "func a()",
           Embedding := [Float64.finite 1] }]) :=
  ⟨fun l => List.Perm.refl l, by decide,
    by simp [runWorkers, worker, buildRequest, workerSection, retryLoop, maxRetries, okResponse],
    let ⟨out, h1, h2, _⟩ := isValidEmbedding_iff.2 id "sk-test"
      (fun _ => { requestErr := false,
                  Do := fun _ => { resp := some (okResponse [Float64.finite 1]),
                                   err := none } })
      [{ ID := "c0", File := "a.go", Code := "func a()" }]
      [{ ID := "c0", File := "a.go", Code := "func a()", Embedding := [Float64.finite 1] }]
      (fun l => List.Perm.refl l) (by decide)
      (by simp [runWorkers, worker, buildRequest, workerSection, retryLoop, maxRetries,
            okResponse])
    ⟨out, h1, h2⟩⟩

/-! ## The retry loop -/

theorem callsMade_le {F : Type} (Do : Nat → DoResult F) (remaining attempt : Nat) :
    callsMade Do remaining attempt ≤ remaining := by
  induction remaining generalizing attempt with
  | zero => simp [callsMade]
  | succ n ih =>
    have := ih (attempt + 1)
    simp only [callsMade]
    split
    · omega
    · split <;> omega
    · omega
    · omega

theorem retryLoop_calls {F : Type} (Do : Nat → DoResult F) (remaining attempt : Nat)
    (vars out : LoopVars F) (h : retryLoop Do remaining attempt vars = .ok out) :
    out.calls = vars.calls + callsMade Do remaining attempt := by
  induction remaining generalizing attempt vars with
  | zero =>
    simp only [retryLoop, Except.ok.injEq] at h
    subst h
    simp [callsMade]
  | succ n ih =>
    simp only [retryLoop] at h
    simp only [callsMade]
    split at h
    · simp at h
    · split at h
      · rename_i h200
        simp only [Except.ok.injEq] at h
        subst h
        simp [h200]
      · rename_i h200
        have := ih _ _ h
        simp only [h200, if_false] at this ⊢
        omega
    · simp at h
    · have := ih _ _ h
      simp only at this ⊢
      omega

/-- The worker stops at the first attempt without transport error and with
status 200, after failures that carried a response. -/
theorem retryLoop_first_success {F : Type} (Do : Nat → DoResult F) (resp : Response F)
    (n attempt k : Nat) (vars : LoopVars F) (hk : k < n)
    (hfail : ∀ j, j < k → ∃ r, (Do (attempt + j)).resp = some r ∧
      ((Do (attempt + j)).err ≠ none ∨ r.StatusCode ≠ 200))
    (hok : (Do (attempt + k)).resp = some resp ∧ (Do (attempt + k)).err = none ∧
      resp.StatusCode = 200) :
    retryLoop Do n attempt vars =
      .ok { resp := some resp, err := none, closed := false, calls := vars.calls + k + 1 } := by
  induction k generalizing n attempt vars with
  | zero =>
    obtain ⟨m, rfl⟩ : ∃ m, n = m + 1 := ⟨n - 1, by omega⟩
    simp only [Nat.add_zero] at hok
    simp [retryLoop, hok.1, hok.2.1, hok.2.2]
  | succ k ih =>
    obtain ⟨m, rfl⟩ : ∃ m, n = m + 1 := ⟨n - 1, by omega⟩
    obtain ⟨r, hr, hbad⟩ := hfail 0 (by omega)
    simp only [Nat.add_zero] at hr hbad
    have hfail2 : ∀ j, j < k → ∃ r, (Do (attempt + 1 + j)).resp = some r ∧
        ((Do (attempt + 1 + j)).err ≠ none ∨ r.StatusCode ≠ 200) := by
      intro j hj
      have := hfail (j + 1) (by omega)
      rwa [show attempt + (j + 1) = attempt + 1 + j by omega] at this
    have hok2 : (Do (attempt + 1 + k)).resp = some resp ∧ (Do (attempt + 1 + k)).err = none ∧
        resp.StatusCode = 200 := by
      rwa [show attempt + (k + 1) = attempt + 1 + k by omega] at hok
    simp only [retryLoop, hr]
    cases herr : (Do attempt).err with
    | none =>
      have h200 : r.StatusCode ≠ 200 := by
        rcases hbad with h | h
        · exact absurd herr h
        · exact h
      simp only [h200, if_false]
      rw [ih m (attempt + 1) _ (by omega) hfail2 hok2]
      simp [Nat.add_assoc, Nat.add_comm 1 k]
    | some e =>
      simp only
      rw [ih m (attempt + 1) _ (by omega) hfail2 hok2]
      simp [Nat.add_assoc, Nat.add_comm 1 k]

/-- After `n` failed attempts that all carried a response the loop is left
with the last response closed, and `err` is the last attempt's error. -/
theorem retryLoop_all_fail {F : Type} (Do : Nat → DoResult F) (n attempt : Nat)
    (vars : LoopVars F)
    (hfail : ∀ j, j < n → ∃ r, (Do (attempt + j)).resp = some r ∧
      ((Do (attempt + j)).err ≠ none ∨ r.StatusCode ≠ 200)) :
    ∃ out, retryLoop Do n attempt vars = .ok out ∧ out.calls = vars.calls + n ∧
      (0 < n → out.closed = true ∧ out.resp ≠ none ∧
        out.err = (Do (attempt + n - 1)).err) := by
  induction n generalizing attempt vars with
  | zero => exact ⟨vars, rfl, rfl, fun h => absurd h (by omega)⟩
  | succ m ih =>
    obtain ⟨r, hr, hbad⟩ := hfail 0 (by omega)
    simp only [Nat.add_zero] at hr hbad
    have hfail2 : ∀ j, j < m → ∃ r, (Do (attempt + 1 + j)).resp = some r ∧
        ((Do (attempt + 1 + j)).err ≠ none ∨ r.StatusCode ≠ 200) := by
      intro j hj
      have := hfail (j + 1) (by omega)
      rwa [show attempt + (j + 1) = attempt + 1 + j by omega] at this
    simp only [retryLoop, hr]
    cases herr : (Do attempt).err with
    | none =>
      have h200 : r.StatusCode ≠ 200 := by
        rcases hbad with h | h
        · exact absurd herr h
        · exact h
      simp only [h200, if_false]
      obtain ⟨out, ho, hc, hl⟩ := ih (attempt + 1)
        { resp := some r, err := none, closed := true, calls := vars.calls + 1 } hfail2
      refine ⟨out, ho, by simp only at hc; omega, fun _ => ?_⟩
      rcases Nat.eq_zero_or_pos m with rfl | hm
      · simp only [retryLoop, Except.ok.injEq] at ho
        subst ho
        simp [herr]
      · have := hl hm
        rw [show attempt + (m + 1) - 1 = attempt + 1 + m - 1 by omega]
        exact this
    | some e =>
      simp only
      obtain ⟨out, ho, hc, hl⟩ := ih (attempt + 1)
        { resp := some r, err := some e, closed := true, calls := vars.calls + 1 } hfail2
      refine ⟨out, ho, by simp only at hc; omega, fun _ => ?_⟩
      rcases Nat.eq_zero_or_pos m with rfl | hm
      · simp only [retryLoop, Except.ok.injEq] at ho
        subst ho
        simp [herr]
      · have := hl hm
        rw [show attempt + (m + 1) - 1 = attempt + 1 + m - 1 by omega]
        exact this

/-- A chunk whose three attempts all fail with a response present (a non-200
status, or an error that comes with a response) is not sent to `results`. -/
theorem workerSection_all_fail {F : Type} (net : ChunkNet F) (c : Chunk)
    (hfail : ∀ j, j < 3 → ∃ r, (net.Do (1 + j)).resp = some r ∧
      ((net.Do (1 + j)).err ≠ none ∨ r.StatusCode ≠ 200)) :
    workerSection net c = .ok none := by
  obtain ⟨out, ho, _, hl⟩ := retryLoop_all_fail net.Do 3 1
    { resp := none, err := none, closed := false, calls := 0 } hfail
  obtain ⟨hclosed, hresp, _⟩ := hl (by omega)
  unfold workerSection
  rw [show maxRetries = 3 from rfl, ho]
  simp only
  split
  · rfl
  · split
    · rename_i hnone
      exact absurd hnone hresp
    · simp [hclosed]

/-- A chunk whose attempts 1 and 2 are answered with a non-200 status and
whose attempt 3 is answered with status 200 and a readable body holding an
embedding is sent to `results` with that embedding, after three calls. -/
theorem workerSection_third_time {F : Type} (net : ChunkNet F) (c : Chunk)
    (r1 r2 r3 : Response F) (d : EmbeddingDatum F) (ds : List (EmbeddingDatum F))
    (h1 : net.Do 1 = { resp := some r1, err := none }) (s1 : r1.StatusCode ≠ 200)
    (h2 : net.Do 2 = { resp := some r2, err := none }) (s2 : r2.StatusCode ≠ 200)
    (h3 : net.Do 3 = { resp := some r3, err := none }) (s3 : r3.StatusCode = 200)
    (hread : r3.ReadErr = false) (hjson : r3.Json = some { Data := d :: ds }) :
    workerSection net c
        = .ok (some { ID := c.ID, File := c.File, Code := c.Code, Embedding := d.Embedding }) ∧
    callsMade net.Do maxRetries 1 = 3 := by
  constructor
  · simp [workerSection, maxRetries, retryLoop, h1, h2, h3, s1, s2, s3, hread, hjson]
  · simp [maxRetries, callsMade, h1, h2, h3, s1, s2, s3]

/-- A chunk answered at its first attempt with status 200 and a readable body
holding an embedding is sent to `results` after one call. -/
theorem workerSection_first_time {F : Type} (net : ChunkNet F) (c : Chunk)
    (r : Response F) (d : EmbeddingDatum F) (ds : List (EmbeddingDatum F))
    (h1 : net.Do 1 = { resp := some r, err := none }) (s1 : r.StatusCode = 200)
    (hread : r.ReadErr = false) (hjson : r.Json = some { Data := d :: ds }) :
    workerSection net c
        = .ok (some { ID := c.ID, File := c.File, Code := c.Code, Embedding := d.Embedding }) := by
  simp [workerSection, maxRetries, retryLoop, h1, s1, hread, hjson]

theorem isValidEmbedding_validVector (c : Chunk) : isValidEmbedding (embedded c) = true := by
  rw [isValidEmbedding_spec]
  constructor
  · exact List.length_replicate 1536 (Float64.finite 0)
  · intro v hv
    have : v = Float64.finite 0 := by
      simp only [embedded, validVector] at hv
      exact (List.mem_replicate.1 hv).2
    subst this
    simp

theorem worker_netOk (apiKey : String) (c : Chunk) :
    worker apiKey netOk c = .ok (some (embedded c)) := by
  have h := (workerSection_first_time netOk c (okResponse validVector)
    { Embedding := validVector } [] rfl rfl rfl rfl)
  simp only [worker, buildRequest, h]
  rfl

theorem worker_netAlways500 (apiKey : String) (c : Chunk) :
    worker apiKey netAlways500 c = .ok none := by
  have h := workerSection_all_fail netAlways500 c
    (fun _ _ => ⟨failResponse, rfl, Or.inr (by simp [failResponse])⟩)
  simp only [worker, buildRequest, h]
  rfl

theorem worker_netTransportError (apiKey : String) (c : Chunk) :
    worker apiKey netTransportError c = .error .panic := by
  have h : workerSection netTransportError c = .error .panic := by
    simp [workerSection, maxRetries, retryLoop, netTransportError]
  simp only [worker, buildRequest, h]
  rfl

/-- The simulation of the specification: of five chunks, the third is answered
with status 500 at every attempt; the other four are returned. -/
theorem EmbedChunks_one_permanent_failure :
    EmbedChunks id "sk-test" (fun i => if i = 2 then netAlways500 else netOk) fiveChunks
      = .ok [embedded { ID := "c0", File := "a.go", Code := "func a()" },
             embedded { ID := "c1", File := "b.go", Code := "func b()" },
             embedded { ID := "c3", File := "d.go", Code := "func d()" },
             embedded { ID := "c4", File := "e.go", Code := "func e()" }] := by
  have hkey : ¬ ("sk-test" = "") := by decide
  simp [EmbedChunks, hkey, fiveChunks, runWorkers, worker_netOk, worker_netAlways500,
    isValidEmbedding_validVector, List.filter]

/-- C3, the code at the failing input: of five chunks, the third meets a
transport error without a response at its first attempt, the other four are
answered with status 200 and a valid embedding. The worker evaluates
`resp.StatusCode` on the nil response in its `log.Printf("Retry ...")` line,
and `EmbedChunks` ends in a panic instead of returning the other four
chunks. -/
theorem EmbedChunks_transport_error_panics :
    worker "sk-test" netTransportError { ID := "c2", File := "c.go", Code := "func c()" }
      = .error .panic ∧
    EmbedChunks id "sk-test" (fun i => if i = 2 then netTransportError else netOk) fiveChunks
      = .error .panic := by
  have hkey : ¬ ("sk-test" = "") := by decide
  constructor
  · exact worker_netTransportError _ _
  · simp [EmbedChunks, hkey, fiveChunks, runWorkers, worker_netOk, worker_netTransportError]

/-- C4, the code at the failing input: a batch of one chunk whose attempts 1
and 2 are answered with status 500 and whose attempt 3 meets a transport
error without a response. All three attempts fail, three calls are made, and
`EmbedChunks` ends in a panic (the same nil `resp.StatusCode` as in C3)
instead of returning a list without the chunk. -/
theorem EmbedChunks_third_attempt_panics :
    callsMade net500ThenTransportError.Do maxRetries 1 = 3 ∧
    EmbedChunks id "sk-test" (fun _ => net500ThenTransportError)
        [{ ID := "c0", File := "a.go", Code := "func a()" }]
      = .error .panic := by
  have hkey : ¬ ("sk-test" = "") := by decide
  constructor
  · simp [callsMade, maxRetries, net500ThenTransportError, failResponse]
  · simp [EmbedChunks, hkey, runWorkers, worker, buildRequest, workerSection, maxRetries,
      retryLoop, net500ThenTransportError, failResponse]

/-- The third-time-lucky chunk of C4 is returned. -/
theorem EmbedChunks_third_time :
    EmbedChunks id "sk-test" (fun _ => netThirdTime)
        [{ ID := "c0", File := "a.go", Code := "func a()" }]
      = .ok [embedded { ID := "c0", File := "a.go", Code := "func a()" }] := by
  have hkey : ¬ ("sk-test" = "") := by decide
  have hw := (workerSection_third_time netThirdTime
    { ID := "c0", File := "a.go", Code := "func a()" } failResponse failResponse
    (okResponse validVector) { Embedding := validVector } []
    (by simp [netThirdTime]) (by simp [failResponse])
    (by simp [netThirdTime]) (by simp [failResponse])
    (by simp [netThirdTime]) (by simp [okResponse]) (by simp [okResponse])
    (by simp [okResponse])).1
  have hworker : worker "sk-test" netThirdTime { ID := "c0", File := "a.go", Code := "func a()" }
      = .ok (some (embedded { ID := "c0", File := "a.go", Code := "func a()" })) := by
    simp only [worker, buildRequest, hw]
    rfl
  simp [EmbedChunks, hkey, runWorkers, hworker, isValidEmbedding_validVector, List.filter]

/-! ## `EmbedQuery` -/

theorem EmbedQuery_calls {F : Type} (Do : Nat → DoResult F) : (EmbedQuery Do).calls = 1 := rfl

/-- A transport error, a non-200 status and an empty `data` array never give
a vector. -/
theorem EmbedQuery_no_vector {F : Type} (Do : Nat → DoResult F) (v : List F)
    (h : (Do 1).err ≠ none ∨
      (∃ r, (Do 1).resp = some r ∧
        (r.StatusCode ≠ 200 ∨ r.Json = some { Data := [] }))) :
    (EmbedQuery Do).result ≠ .ok (.ok v) := by
  unfold EmbedQuery
  simp only
  rcases h with h | ⟨r, hr, h⟩
  · cases herr : (Do 1).err with
    | none => exact absurd herr h
    | some e => simp
  · cases herr : (Do 1).err with
    | some e => simp
    | none =>
      simp only [hr]
      rcases h with h | h
      · simp only [h, ne_eq, not_false_eq_true, if_true]
        split <;> simp
      · split
        · split <;> simp
        · simp [h]

/-- The expression `body[:200]` on what `io.ReadAll` returns never panics: it
is the first `min(200, len(body))` bytes of the body, followed by zero bytes
of the buffer up to 200. -/
theorem ioReadAll_sliceTo (body : List Nat) :
    (ioReadAll body).sliceTo 200 =
      .ok (body.take (min 200 body.length) ++
            List.replicate (200 - min 200 body.length) 0) := by
  have hcap : 200 ≤ (ioReadAll body).cap := by
    simp only [ioReadAll, ByteSlice.cap, List.length_replicate, readAllCap]
    omega
  have htake : ((ioReadAll body).data ++ (ioReadAll body).spare).take 200 =
      body.take (min 200 body.length) ++ List.replicate (200 - min 200 body.length) 0 := by
    simp only [ioReadAll, List.take_append_eq_append_take, List.take_replicate, readAllCap]
    rcases Nat.le_total 200 body.length with h | h
    · rw [Nat.min_eq_left h, show min (200 - body.length) (512 - body.length) = 0 by omega]
    · rw [Nat.min_eq_right h, List.take_of_length_le h, List.take_of_length_le (le_refl _),
        show min (200 - body.length) (512 - body.length) = 200 - body.length by omega]
  unfold ByteSlice.sliceTo
  rw [if_pos hcap, htake]

/-- C9: `EmbedQuery` makes exactly one call of `http.DefaultClient.Do`; a
transport error, a non-200 status and an empty `data` array each make it
return an error, never a vector; and for a non-200 status with a body of any
length the error carries the status code and the body's first
`min(200, len(body))` bytes, followed by nothing but zero bytes of the read
buffer (none for a body of 200 bytes or more), so nothing else from the
body. -/
theorem EmbedQuery_errors {F : Type} (Do : Nat → DoResult F) :
    (EmbedQuery Do).calls = 1 ∧
    (∀ e, (Do 1).err = some e → (EmbedQuery Do).result = .ok (.error (.transport e))) ∧
    (∀ r, (Do 1).err = none → (Do 1).resp = some r → r.StatusCode ≠ 200 →
      (EmbedQuery Do).result =
        .ok (.error (.api r.StatusCode
          (r.Body.take (min 200 r.Body.length) ++
            List.replicate (200 - min 200 r.Body.length) 0)))) ∧
    (∀ r, (Do 1).err = none → (Do 1).resp = some r → r.StatusCode = 200 →
      r.Json = some { Data := [] } →
      (EmbedQuery Do).result = .ok (.error .noEmbedding)) := by
  refine ⟨rfl, fun e he => ?_, fun r herr hr hs => ?_, fun r herr hr hs hj => ?_⟩
  · simp [EmbedQuery, he]
  · simp [EmbedQuery, herr, hr, hs, ioReadAll_sliceTo]
  · simp [EmbedQuery, herr, hr, hs, hj]

/-- Witness for C9: a `404` answer with the nine-byte body `Not Found`, and a
call that fails in transport. -/
theorem EmbedQuery_errors_witness :
    ((notFound 1).err = none ∧
      (notFound 1).resp = some { StatusCode := 404, Body := notFoundBody, ReadErr := false,
                                 Json := none } ∧
      (404 : Int) ≠ 200 ∧
      (EmbedQuery notFound).result =
        .ok (.error (.api 404
          (notFoundBody.take (min 200 notFoundBody.length) ++
            List.replicate (200 - min 200 notFoundBody.length) 0))) ∧
      notFoundBody.take (min 200 notFoundBody.length) = notFoundBody) ∧
    (netTransportError.Do 1).err = some "dial tcp: connection refused" ∧
    (EmbedQuery netTransportError.Do).result
      = .ok (.error (.transport "dial tcp: connection refused")) ∧
    (EmbedQuery netTransportError.Do).calls = 1 :=
  ⟨⟨rfl, rfl, by decide,
      (EmbedQuery_errors notFound).2.2.1
        { StatusCode := 404, Body := notFoundBody, ReadErr := false, Json := none }
        rfl rfl (by decide),
      rfl⟩,
    rfl, (EmbedQuery_errors netTransportError.Do).2.1 _ rfl,
    (EmbedQuery_errors netTransportError.Do).1⟩

/-! ## The semaphore -/

theorem count_set_phase (l : List Phase) (i : Nat) (q p x : Phase) (h : l[i]? = some q) :
    (l.set i p).count x + (if q = x then 1 else 0) = l.count x + (if p = x then 1 else 0) := by
  induction l generalizing i with
  | nil => simp at h
  | cons y ys ih =>
    cases i with
    | zero =>
      simp only [List.getElem?_cons_zero, Option.some.injEq] at h
      subst h
      simp only [List.set_cons_zero, List.count_cons, beq_iff_eq]
      omega
    | succ j =>
      simp only [List.getElem?_cons_succ] at h
      have := ih j h
      simp only [List.set_cons_succ, List.count_cons, beq_iff_eq]
      omega

/-- The invariant of the goroutine system: the number of values buffered in
`sem` is the number of goroutines in flight, it is at most `semCap`, and there
is one goroutine per chunk. -/
theorem step_invariant {F : Type} (apiKey : String) (net : Nat → ChunkNet F)
    (chunks : List Chunk) (s t : Sys F) (e : Event)
    (hstep : Sys.step apiKey net chunks s e = some t)
    (hinv : s.sem = inFlightCount s.phases ∧ s.sem ≤ semCap ∧ s.phases.length = chunks.length) :
    t.sem = inFlightCount t.phases ∧ t.sem ≤ semCap ∧ t.phases.length = chunks.length := by
  obtain ⟨h1, h2, h3⟩ := hinv
  unfold inFlightCount at h1 ⊢
  cases e with
  | build i =>
    simp only [Sys.step] at hstep
    split at hstep
    · simp at hstep
    · split at hstep
      · rename_i c hp hc
        split at hstep
        · simp only [Option.some.injEq] at hstep
          subst hstep
          have := count_set_phase s.phases i Phase.start Phase.done Phase.inFlight hp
          simp only [reduceCtorEq, if_false, Nat.add_zero] at this
          simp only [List.length_set]
          exact ⟨by omega, h2, h3⟩
        · simp only [Option.some.injEq] at hstep
          subst hstep
          have := count_set_phase s.phases i Phase.start Phase.waiting Phase.inFlight hp
          simp only [reduceCtorEq, if_false, Nat.add_zero] at this
          simp only [List.length_set]
          exact ⟨by omega, h2, h3⟩
      · simp at hstep
  | acquire i =>
    simp only [Sys.step] at hstep
    split at hstep
    · simp at hstep
    · split at hstep
      · rename_i hp
        split at hstep
        · rename_i hlt
          simp only [Option.some.injEq] at hstep
          subst hstep
          have := count_set_phase s.phases i Phase.waiting Phase.inFlight Phase.inFlight hp
          simp only [reduceCtorEq, if_false, if_true, Nat.add_zero] at this
          simp only [List.length_set]
          exact ⟨by omega, by omega, h3⟩
        · simp at hstep
      · simp at hstep
  | finish i =>
    simp only [Sys.step] at hstep
    split at hstep
    · simp at hstep
    · split at hstep
      · rename_i c hp hc
        have := count_set_phase s.phases i Phase.inFlight Phase.done Phase.inFlight hp
        simp only [reduceCtorEq, if_false, if_true, Nat.add_zero] at this
        split at hstep
        · simp at hstep
        · split at hstep <;>
          · simp only [Option.some.injEq] at hstep
            subst hstep
            simp only [List.length_set]
            exact ⟨by omega, by omega, h3⟩
      · simp at hstep

theorem run_invariant {F : Type} (apiKey : String) (net : Nat → ChunkNet F)
    (chunks : List Chunk) (events : List Event) (s t : Sys F)
    (hrun : Sys.run apiKey net chunks s events = some t)
    (hinv : s.sem = inFlightCount s.phases ∧ s.sem ≤ semCap ∧ s.phases.length = chunks.length) :
    t.sem = inFlightCount t.phases ∧ t.sem ≤ semCap ∧ t.phases.length = chunks.length := by
  induction events generalizing s with
  | nil =>
    simp only [Sys.run, Option.some.injEq] at hrun
    subst hrun
    exact hinv
  | cons e es ih =>
    simp only [Sys.run] at hrun
    split at hrun
    · simp at hrun
    · rename_i u hu
      exact ih u hrun (step_invariant apiKey net chunks s u e hu hinv)

theorem init_invariant {F : Type} (chunks : List Chunk) :
    (Sys.init chunks : Sys F).sem = inFlightCount (Sys.init chunks : Sys F).phases ∧
    (Sys.init chunks : Sys F).sem ≤ semCap ∧
    (Sys.init chunks : Sys F).phases.length = chunks.length := by
  refine ⟨?_, by simp [Sys.init], by simp [Sys.init]⟩
  simp only [Sys.init, inFlightCount]
  induction chunks with
  | nil => simp
  | cons c cs ih => simpa [List.count_cons] using ih

/-- C10: for every batch and every interleaving of the workers of
`EmbedChunks`, in the state reached (so at every point of the interleaving)
at most 5 workers are between the send `sem <- struct{}{}` and the deferred
receive `<-sem`, and their number is the number of values buffered in `sem`;
`buildRequest` runs only in a worker that has not yet acquired a slot and
leaves `sem` alone, the slot is acquired only after it; and a worker in
flight can always finish, whatever the outcome of its calls (return or
panic), and finishing gives its slot back. -/
theorem semaphore_bound {F : Type} (apiKey : String) (net : Nat → ChunkNet F)
    (chunks : List Chunk) (events : List Event) (s : Sys F)
    (hrun : Sys.run apiKey net chunks (Sys.init chunks) events = some s) :
    inFlightCount s.phases ≤ 5 ∧ s.sem = inFlightCount s.phases ∧
    (∀ i t, Sys.step apiKey net chunks s (.build i) = some t →
      s.phases[i]? = some Phase.start ∧ t.sem = s.sem ∧
      inFlightCount t.phases = inFlightCount s.phases) ∧
    (∀ i t, Sys.step apiKey net chunks s (.acquire i) = some t →
      s.phases[i]? = some Phase.waiting ∧ s.sem < 5 ∧ t.sem = s.sem + 1) ∧
    (∀ i, s.crashed = false → s.phases[i]? = some Phase.inFlight →
      ∃ t, Sys.step apiKey net chunks s (.finish i) = some t ∧ t.sem + 1 = s.sem ∧
        t.phases[i]? = some Phase.done ∧
        inFlightCount t.phases + 1 = inFlightCount s.phases) := by
  obtain ⟨h1, h2, h3⟩ := run_invariant apiKey net chunks events _ s hrun (init_invariant chunks)
  refine ⟨by rw [← h1]; exact h2, h1, ?_, ?_, ?_⟩
  · intro i t ht
    have hinv := step_invariant apiKey net chunks s t _ ht ⟨h1, h2, h3⟩
    simp only [Sys.step] at ht
    split at ht
    · simp at ht
    · split at ht
      · rename_i c hp hc
        have hsem : t.sem = s.sem := by
          split at ht <;>
          · simp only [Option.some.injEq] at ht
            subst ht
            rfl
        exact ⟨hp, hsem, by rw [← hinv.1, ← h1, hsem]⟩
      · simp at ht
  · intro i t ht
    simp only [Sys.step] at ht
    split at ht
    · simp at ht
    · split at ht
      · rename_i hp
        split at ht
        · rename_i hlt
          simp only [Option.some.injEq] at ht
          subst ht
          exact ⟨hp, hlt, rfl⟩
        · simp at ht
      · simp at ht
  · intro i hlive hp
    have hi : i < s.phases.length := by
      by_contra hcon
      rw [List.getElem?_eq_none (by omega)] at hp
      simp at hp
    have hc : ∃ c, chunks[i]? = some c := by
      rw [h3] at hi
      exact ⟨chunks[i], List.getElem?_eq_getElem hi⟩
    obtain ⟨c, hc⟩ := hc
    have hmem : Phase.inFlight ∈ s.phases := List.mem_iff_getElem?.2 ⟨i, hp⟩
    have hpos : 0 < inFlightCount s.phases := List.count_pos_iff.2 hmem
    have hsem : s.sem ≠ 0 := by omega
    have hstep : ∃ t, Sys.step apiKey net chunks s (.finish i) = some t := by
      simp only [Sys.step, hlive, hp, hc, hsem]
      simp only [Bool.false_eq_true, if_false]
      split <;> exact ⟨_, rfl⟩
    obtain ⟨t, ht⟩ := hstep
    have hinv := step_invariant apiKey net chunks s t _ ht ⟨h1, h2, h3⟩
    have hsem2 : t.sem + 1 = s.sem ∧ t.phases[i]? = some Phase.done := by
      simp only [Sys.step, hlive, hp, hc, hsem] at ht
      simp only [Bool.false_eq_true, if_false] at ht
      split at ht <;>
      · simp only [Option.some.injEq] at ht
        subst ht
        simp only [List.getElem?_set_self hi]
        exact ⟨by omega, trivial⟩
    exact ⟨t, ht, hsem2.1, hsem2.2, by rw [← hinv.1, ← h1]; exact hsem2.1⟩

/-- Witness for C10: two chunks, both built and both in flight. -/
theorem semaphore_bound_witness :
    Sys.run "sk-test" (fun _ => netOk)
        [{ ID := "c0", File := "a.go", Code := "func a()" },
         { ID := "c1", File := "b.go", Code := "func b()" }]
        (Sys.init [{ ID := "c0", File := "a.go", Code := "func a()" },
                   { ID := "c1", File := "b.go", Code := "func b()" }])
        [.build 0, .build 1, .acquire 0, .acquire 1]
      = some { phases := [Phase.inFlight, Phase.inFlight], sem := 2, results := [],
               crashed := false } ∧
    inFlightCount [Phase.inFlight, Phase.inFlight] ≤ 5 :=
  ⟨rfl, (semaphore_bound "sk-test" (fun _ => netOk)
      [{ ID := "c0", File := "a.go", Code := "func a()" },
       { ID := "c1", File := "b.go", Code := "func b()" }]
      [.build 0, .build 1, .acquire 0, .acquire 1]
      { phases := [Phase.inFlight, Phase.inFlight], sem := 2, results := [], crashed := false }
      rfl).1⟩

/-- With five workers in flight the send of a sixth on `sem` is not possible
until one of the five has finished. -/
theorem sixth_worker_blocks :
    Sys.step "sk-test" (fun _ => netOk)
        (fiveChunks ++ [{ ID := "c5", File := "f.go", Code := "func f()" }])
        { phases := [Phase.inFlight, Phase.inFlight, Phase.inFlight, Phase.inFlight,
                     Phase.inFlight, Phase.waiting],
          sem := 5, results := [], crashed := false }
        (.acquire 5) = none := by
  rfl

/-! ## The `results` channel

The goroutine system and `runWorkers` agree: when every goroutine has
returned and none has panicked, `results` holds, in some order, what
`runWorkers` lists in launch order. -/

theorem sentByDone_set {F : Type} (apiKey : String) (net : Nat → ChunkNet F)
    (k i : Nat) (phases : List Phase) (chunks : List Chunk) (q p : Phase) (c : Chunk)
    (hq : phases[i]? = some q) (hc : chunks[i]? = some c) (hqd : q ≠ Phase.done) :
    (sentByDone apiKey net k (phases.set i p) chunks).Perm
      ((if p = Phase.done then sentBy apiKey (net (k + i)) c else []) ++
        sentByDone apiKey net k phases chunks) := by
  induction phases generalizing k i chunks with
  | nil => simp at hq
  | cons x xs ih =>
    cases chunks with
    | nil => simp at hc
    | cons d ds =>
      cases i with
      | zero =>
        simp only [List.getElem?_cons_zero, Option.some.injEq] at hq hc
        subst hq hc
        simp only [List.set_cons_zero, sentByDone, hqd, if_false, List.nil_append,
          Nat.add_zero]
        exact List.Perm.refl _
      | succ j =>
        simp only [List.getElem?_cons_succ] at hq hc
        have := ih (k + 1) j ds hq hc
        simp only [List.set_cons_succ, sentByDone]
        rw [show k + (j + 1) = k + 1 + j by omega]
        refine (List.Perm.append_left _ this).trans ?_
        rw [← List.append_assoc, ← List.append_assoc]
        exact List.Perm.append_right _ List.perm_append_comm

theorem sentByDone_init {F : Type} (apiKey : String) (net : Nat → ChunkNet F)
    (k : Nat) (chunks : List Chunk) :
    sentByDone apiKey net k (chunks.map (fun _ => Phase.start)) chunks = [] := by
  induction chunks generalizing k with
  | nil => rfl
  | cons c cs ih =>
    simp only [List.map_cons, sentByDone, reduceCtorEq, if_false, List.nil_append]
    exact ih _

theorem runWorkers_eq_sentByDone {F : Type} (apiKey : String) (net : Nat → ChunkNet F)
    (k : Nat) (phases : List Phase) (chunks : List Chunk)
    (hlen : phases.length = chunks.length) (hdone : ∀ p ∈ phases, p = Phase.done)
    (hok : ∀ i c, chunks[i]? = some c → ∃ r, worker apiKey (net (k + i)) c = .ok r) :
    runWorkers apiKey net k chunks = .ok (sentByDone apiKey net k phases chunks) := by
  induction chunks generalizing k phases with
  | nil =>
    cases phases with
    | nil => rfl
    | cons p ps => simp at hlen
  | cons c cs ih =>
    cases phases with
    | nil => simp at hlen
    | cons p ps =>
      have hp : p = Phase.done := hdone p (by simp)
      obtain ⟨r, hr⟩ := hok 0 c (by simp)
      simp only [Nat.add_zero] at hr
      have hrest := ih (k + 1) ps (by simpa using hlen) (fun q hq => hdone q (by simp [hq]))
        (fun i d hd => by
          have := hok (i + 1) d (by simpa using hd)
          rwa [show k + (i + 1) = k + 1 + i by omega] at this)
      simp only [runWorkers, hr, hrest, sentByDone, hp, if_true, sentBy]
      cases r <;> rfl

theorem getElem?_set_phase (l : List Phase) (i j : Nat) (q p : Phase) (h : l[i]? = some q) :
    (l.set i p)[j]? = if i = j then some p else l[j]? := by
  have hi : i < l.length := by
    by_contra hcon
    rw [List.getElem?_eq_none (by omega)] at h
    simp at h
  rw [List.getElem?_set, if_pos hi]

/-- Moving worker `i` from a phase `q` other than `done` to the phase `p`
keeps the state consistent, given what the move does to `results` and
`crashed`. -/
theorem consistent_set {F : Type} (apiKey : String) (net : Nat → ChunkNet F)
    (chunks : List Chunk) (s : Sys F) (i : Nat) (q p : Phase) (c : Chunk)
    (sem : Nat) (results : List (EmbeddedChunk F)) (crashed : Bool)
    (hcons : Sys.Consistent apiKey net chunks s)
    (hq : s.phases[i]? = some q) (hc : chunks[i]? = some c) (hqd : q ≠ Phase.done)
    (hb : p = Phase.waiting ∨ p = Phase.inFlight → buildRequest (net i) c apiKey = .ok ())
    (hres : results.Perm
      ((if p = Phase.done then sentBy apiKey (net i) c else []) ++ s.results))
    (hcr : crashed = false →
      s.crashed = false ∧ (p = Phase.done → ∃ r, worker apiKey (net i) c = .ok r)) :
    Sys.Consistent apiKey net chunks
      { phases := s.phases.set i p, sem := sem, results := results, crashed := crashed } := by
  obtain ⟨h1, h2, h3⟩ := hcons
  refine ⟨?_, ?_, ?_⟩
  · have hset := sentByDone_set apiKey net 0 i s.phases chunks q p c hq hc hqd
    simp only [Nat.zero_add] at hset
    exact hres.trans ((List.Perm.append_left _ h1).trans hset.symm)
  · intro j d hj hd
    simp only [getElem?_set_phase s.phases i j q p hq] at hj
    by_cases hij : i = j
    · subst hij
      simp only [if_true, Option.some.injEq] at hj
      rw [hc] at hd
      cases hd
      exact hb hj
    · simp only [hij, if_false] at hj
      exact h2 j d hj hd
  · intro hlive j d hj hd
    obtain ⟨hs, hw⟩ := hcr hlive
    simp only [getElem?_set_phase s.phases i j q p hq] at hj
    by_cases hij : i = j
    · subst hij
      simp only [if_true, Option.some.injEq] at hj
      rw [hc] at hd
      cases hd
      exact hw hj
    · simp only [hij, if_false] at hj
      exact h3 hs j d hj hd

theorem step_consistent {F : Type} (apiKey : String) (net : Nat → ChunkNet F)
    (chunks : List Chunk) (s t : Sys F) (e : Event)
    (hstep : Sys.step apiKey net chunks s e = some t)
    (hlen : s.phases.length = chunks.length)
    (hcons : Sys.Consistent apiKey net chunks s) :
    Sys.Consistent apiKey net chunks t := by
  cases e with
  | build i =>
    simp only [Sys.step] at hstep
    split at hstep
    · simp at hstep
    · rename_i hlive
      split at hstep
      · rename_i c hp hc
        split at hstep
        · rename_i err hbuild
          simp only [Option.some.injEq] at hstep
          subst hstep
          have hw : worker apiKey (net i) c = .ok none := by simp [worker, hbuild]
          refine consistent_set apiKey net chunks s i Phase.start Phase.done c _ _ _
            hcons hp hc (by simp) (by simp) ?_ ?_
          · simp [sentBy, hw]
          · intro h; exact ⟨h, fun _ => ⟨none, hw⟩⟩
        · rename_i u hbuild
          simp only [Option.some.injEq] at hstep
          subst hstep
          refine consistent_set apiKey net chunks s i Phase.start Phase.waiting c _ _ _
            hcons hp hc (by simp) (fun _ => hbuild) ?_ ?_
          · simp
          · intro h; exact ⟨h, by simp⟩
      · simp at hstep
  | acquire i =>
    simp only [Sys.step] at hstep
    split at hstep
    · simp at hstep
    · split at hstep
      · rename_i hp
        split at hstep
        · simp only [Option.some.injEq] at hstep
          subst hstep
          have hi : i < s.phases.length := by
            by_contra hcon
            rw [List.getElem?_eq_none (by omega)] at hp
            simp at hp
          have hi2 : i < chunks.length := hlen ▸ hi
          have hc : chunks[i]? = some chunks[i] := List.getElem?_eq_getElem hi2
          refine consistent_set apiKey net chunks s i Phase.waiting Phase.inFlight _ _ _ _
            hcons hp hc (by simp) (fun _ => hcons.2.1 i _ (Or.inl hp) hc) ?_ ?_
          · simp
          · intro h; exact ⟨h, by simp⟩
        · simp at hstep
      · simp at hstep
  | finish i =>
    simp only [Sys.step] at hstep
    split at hstep
    · simp at hstep
    · split at hstep
      · rename_i c hp hc
        have hbuild := hcons.2.1 i c (Or.inr hp) hc
        have hw : worker apiKey (net i) c = workerSection (net i) c := by
          simp [worker, hbuild]
        split at hstep
        · simp at hstep
        · split at hstep
          · rename_i err hsec
            simp only [Option.some.injEq] at hstep
            subst hstep
            refine consistent_set apiKey net chunks s i Phase.inFlight Phase.done c _ _ _
              hcons hp hc (by simp) (by simp) ?_ ?_
            · simp [sentBy, hw, hsec]
            · intro h; simp at h
          · rename_i hsec
            simp only [Option.some.injEq] at hstep
            subst hstep
            refine consistent_set apiKey net chunks s i Phase.inFlight Phase.done c _ _ _
              hcons hp hc (by simp) (by simp) ?_ ?_
            · simp [sentBy, hw, hsec]
            · intro h; exact ⟨h, fun _ => ⟨none, by rw [hw, hsec]⟩⟩
          · rename_i ec hsec
            simp only [Option.some.injEq] at hstep
            subst hstep
            refine consistent_set apiKey net chunks s i Phase.inFlight Phase.done c _ _ _
              hcons hp hc (by simp) (by simp) ?_ ?_
            · simp only [sentBy, hw, hsec, if_true]
              exact List.perm_append_comm
            · intro h; exact ⟨h, fun _ => ⟨some ec, by rw [hw, hsec]⟩⟩
      · simp at hstep

theorem init_consistent {F : Type} (apiKey : String) (net : Nat → ChunkNet F)
    (chunks : List Chunk) : Sys.Consistent apiKey net chunks (Sys.init chunks) := by
  refine ⟨?_, ?_, ?_⟩
  · simp only [Sys.init, sentByDone_init]
    exact List.Perm.refl _
  · intro i c h
    simp only [Sys.init, List.getElem?_map] at h
    cases hc : chunks[i]? <;> simp [hc] at h
  · intro _ i c h
    simp only [Sys.init, List.getElem?_map] at h
    cases hc : chunks[i]? <;> simp [hc] at h

theorem run_consistent {F : Type} (apiKey : String) (net : Nat → ChunkNet F)
    (chunks : List Chunk) (events : List Event) (s t : Sys F)
    (hrun : Sys.run apiKey net chunks s events = some t)
    (hinv : s.sem = inFlightCount s.phases ∧ s.sem ≤ semCap ∧ s.phases.length = chunks.length)
    (hcons : Sys.Consistent apiKey net chunks s) :
    Sys.Consistent apiKey net chunks t := by
  induction events generalizing s with
  | nil =>
    simp only [Sys.run, Option.some.injEq] at hrun
    subst hrun
    exact hcons
  | cons e es ih =>
    simp only [Sys.run] at hrun
    split at hrun
    · simp at hrun
    · rename_i u hu
      exact ih u hrun (step_invariant apiKey net chunks s u e hu hinv)
        (step_consistent apiKey net chunks s u e hu hinv.2.2 hcons)

/-- When an interleaving has brought every goroutine to its end without a
panic, `runWorkers` returns a list, and `results` holds the same chunks in
some order: the order in which `EmbedChunks` drains them is a rearrangement
of the launch order. -/
theorem results_perm_runWorkers {F : Type} (apiKey : String) (net : Nat → ChunkNet F)
    (chunks : List Chunk) (events : List Event) (s : Sys F)
    (hrun : Sys.run apiKey net chunks (Sys.init chunks) events = some s)
    (hlive : s.crashed = false) (hdone : ∀ p ∈ s.phases, p = Phase.done) :
    ∃ sent, runWorkers apiKey net 0 chunks = .ok sent ∧ s.results.Perm sent := by
  have hinv := run_invariant apiKey net chunks events _ s hrun (init_invariant chunks)
  obtain ⟨h1, _, h3⟩ := run_consistent apiKey net chunks events _ s hrun
    (init_invariant chunks) (init_consistent apiKey net chunks)
  refine ⟨_, runWorkers_eq_sentByDone apiKey net 0 s.phases chunks hinv.2.2 hdone ?_, h1⟩
  intro i c hc
  have hi : i < s.phases.length := by
    rw [hinv.2.2]
    by_contra hcon
    rw [List.getElem?_eq_none (by omega)] at hc
    simp at hc
  have hp : s.phases[i]? = some Phase.done := by
    rw [List.getElem?_eq_getElem hi, hdone _ (List.getElem_mem hi)]
  simpa using h3 hlive i c hp hc

end GoEmbed
